import Mathlib

/-!
# Elliptic curve arithmetic of `swinnerton.cpp`

A shallow embedding of the classes `Point` and `EllipticCurve` of
`src/swinnerton.cpp`, and theorems about them.

Modelling conventions:

* In `construct`, `mod_inv`, `add` and `multiply`, `long long` is modelled by
  `Int` (unbounded): these agree with the program as long as no operation
  overflows. The C++ operators `/` and `%` on signed integers truncate toward
  zero and are modelled by `Int.tdiv` and `Int.tmod`. Division by zero,
  undefined in C++, can only arise from `% p` with `p = 0`; no theorem below
  depends on it.
* A C++ function that may `throw` returns `Except Error _`; statements are
  sequenced in source order, so the first exception raised is the one
  returned.
* Each `while` loop is a recursive function on the loop state, defined by
  well-founded recursion on the quantity that the loop body decreases, so
  every function of the embedding is total.
* The program on 64-bit integers is modelled by `construct_m`, `mod_inv_m`,
  `add_m` and `multiply_m`: the same code with every arithmetic operation
  passed through a machine arithmetic `w`, which is either `trap64` (no result
  outside the signed 64-bit range) or `wrapped` (results reduced modulo
  `2^64`). The claims C1, C9, C13, C17 and C19, whose truth depends on
  overflow, are stated on the wrap-around runs `construct_m wrapped`,
  `add_m wrapped`, `multiply_m wrapped`; `machine_model_eq` gives the bounds
  under which the unbounded model and the wrap-around runs coincide, and the
  wrap-around runs always have an outcome (`add_m_wrapped_some`,
  `multiply_m_wrapped_some`).
-/

namespace Swinnerton

/-- The two exceptions thrown by the program: `std::invalid_argument`
("Invalid curve parameters") and `std::runtime_error` ("No inverse exists"). -/
inductive Error where
  | invalid_argument
  | runtime_error
  deriving DecidableEq, Repr

/-- Class `Point`: public fields `x`, `y`, `inf`. -/
structure Point where
  x : Int
  y : Int
  inf : Bool
  deriving DecidableEq, Repr

namespace Point

/-- Constructor call `Point(x, y)`, the flag defaulting to `false`. -/
def finite (x y : Int) : Point := ⟨x, y, false⟩

/-- The factory `Point::infinity()`, that is `Point(0, 0, true)`. -/
def infinity : Point := ⟨0, 0, true⟩

/-- The member `Point::operator==`. -/
def eq (P other : Point) : Bool :=
  (P.inf && other.inf) || (P.x == other.x && P.y == other.y && P.inf == other.inf)

/-- The member `Point::operator!=`. -/
def ne (P other : Point) : Bool := !(P.eq other)

end Point

/-- Class `EllipticCurve`: public fields `a`, `b`, `p`. -/
structure EllipticCurve where
  a : Int
  b : Int
  p : Int
  deriving DecidableEq, Repr

namespace EllipticCurve

/-- The constructor `EllipticCurve(a, b, p)`. The test is the C++ expression
`4 * a * a * a + 27 * b * b % p == 0`, in which `%` binds tighter than `+`.
Arithmetic is unbounded here; `construct_m` is the same code on 64-bit
integers, and the two agree when `4*a^3 + 27*b^2 < 2^63`. -/
def construct (a b p : Int) : Except Error EllipticCurve :=
  if 4 * a * a * a + Int.tmod (27 * b * b) p = 0 then
    Except.error Error.invalid_argument
  else
    Except.ok ⟨a, b, p⟩

/-- The `while (newr != 0)` loop of `mod_inv` on the state `(t, newt, r, newr)`;
returns the final `(t, r)`. -/
def mod_inv_loop (t newt r newr : Int) : Int × Int :=
  if h : newr = 0 then (t, r)
  else
    mod_inv_loop newt (t - Int.tdiv r newr * newt) newr (r - Int.tdiv r newr * newr)
termination_by newr.natAbs
decreasing_by
  have h1 : r - Int.tdiv r newr * newr = Int.tmod r newr := by
    have := Int.tmod_add_tdiv r newr
    linarith [mul_comm newr (Int.tdiv r newr)]
  have h3 : (Int.tmod r newr).natAbs = r.natAbs % newr.natAbs := by
    cases r <;> cases newr <;> simp [Int.tmod] <;> rfl
  rw [h1, h3]
  exact Nat.mod_lt _ (Int.natAbs_pos.mpr h)

/-- The member `mod_inv(n)`. -/
def mod_inv (c : EllipticCurve) (n : Int) : Except Error Int :=
  let tr := mod_inv_loop 0 1 c.p n
  if tr.2 > 1 then Except.error Error.runtime_error
  else if tr.1 < 0 then Except.ok (tr.1 + c.p)
  else Except.ok tr.1

/-- The body of `add(P, Q)`, with the inverse routine it calls as a parameter
`inv`; `add` instantiates `inv` with `mod_inv`. Arithmetic is unbounded here;
`add_m` is the same code on 64-bit integers, and the two agree for
`1 < p <= 2^20`, `0 <= a < p` and coordinates in `[0, p - 1]`. -/
def add_with (c : EllipticCurve) (inv : Int → Except Error Int) (P Q : Point) :
    Except Error Point :=
  if P.inf then Except.ok Q
  else if Q.inf then Except.ok P
  else if P.x = Q.x ∧ P.y ≠ Q.y then Except.ok Point.infinity
  else
    let m : Except Error Int :=
      if P.eq Q then
        match inv (2 * P.y) with
        | Except.error e => Except.error e
        | Except.ok v => Except.ok (Int.tmod ((3 * P.x * P.x + c.a) * v) c.p)
      else
        match inv (Q.x - P.x) with
        | Except.error e => Except.error e
        | Except.ok v => Except.ok (Int.tmod ((Q.y - P.y) * v) c.p)
    match m with
    | Except.error e => Except.error e
    | Except.ok m =>
      let x3 := Int.tmod (m * m - P.x - Q.x) c.p
      let y3 := Int.tmod (m * (P.x - x3) - P.y) c.p
      Except.ok (Point.finite (Int.tmod (x3 + c.p) c.p) (Int.tmod (y3 + c.p) c.p))

/-- The member `add(P, Q)`. -/
def add (c : EllipticCurve) (P Q : Point) : Except Error Point :=
  add_with c (mod_inv c) P Q

/-- The `while (n > 0)` loop of `multiply` on the state `(R, Q, n)`, with the
addition routine as a parameter. -/
def multiply_loop (addf : Point → Point → Except Error Point) (R Q : Point) (n : Int) :
    Except Error Point :=
  if h : n > 0 then
    let R1 : Except Error Point :=
      if Int.tmod n 2 = 1 then addf R Q else Except.ok R
    match R1 with
    | Except.error e => Except.error e
    | Except.ok R1 =>
      match addf Q Q with
      | Except.error e => Except.error e
      | Except.ok Q1 => multiply_loop addf R1 Q1 (Int.tdiv n 2)
  else Except.ok R
termination_by n.toNat
decreasing_by
  have : Int.tdiv n 2 = n / 2 := Int.tdiv_eq_ediv (by omega) (by omega)
  omega

/-- The member `multiply(P, n)`. -/
def multiply (c : EllipticCurve) (P : Point) (n : Int) : Except Error Point :=
  multiply_loop (add c) Point.infinity P n

/-- Evaluation form of `mod_inv_loop`: the same loop body, iterated at most `k` times. -/
def mod_inv_loop_fuel : Nat → Int → Int → Int → Int → Int × Int
  | 0, t, _, r, _ => (t, r)
  | k + 1, t, newt, r, newr =>
    if newr = 0 then (t, r)
    else mod_inv_loop_fuel k newt (t - Int.tdiv r newr * newt) newr (r - Int.tdiv r newr * newr)

/-- Evaluation form of `mod_inv`, iterating the loop at most `|n| + 1` times. -/
def mod_inv_eval (c : EllipticCurve) (n : Int) : Except Error Int :=
  let tr := mod_inv_loop_fuel (n.natAbs + 1) 0 1 c.p n
  if tr.2 > 1 then Except.error Error.runtime_error
  else if tr.1 < 0 then Except.ok (tr.1 + c.p)
  else Except.ok tr.1

/-- Evaluation form of `multiply_loop`: the same loop body, iterated at most `k` times. -/
def multiply_loop_fuel (addf : Point → Point → Except Error Point) :
    Nat → Point → Point → Int → Except Error Point
  | 0, R, _, _ => Except.ok R
  | k + 1, R, Q, n =>
    if n > 0 then
      let R1 : Except Error Point :=
        if Int.tmod n 2 = 1 then addf R Q else Except.ok R
      match R1 with
      | Except.error e => Except.error e
      | Except.ok R1 =>
        match addf Q Q with
        | Except.error e => Except.error e
        | Except.ok Q1 => multiply_loop_fuel addf k R1 Q1 (Int.tdiv n 2)
    else Except.ok R

/-- Evaluation form of `add`. -/
def add_eval (c : EllipticCurve) (P Q : Point) : Except Error Point :=
  add_with c (mod_inv_eval c) P Q

/-- Evaluation form of `multiply`, iterating the loop at most `n + 1` times. -/
def multiply_eval (c : EllipticCurve) (P : Point) (n : Int) : Except Error Point :=
  multiply_loop_fuel (add_eval c) (n.toNat + 1) Point.infinity P n

/-! ### Vocabulary of the specification -/

/-- Coordinates of a finite point lie in `[0, p - 1]`. -/
def in_range (c : EllipticCurve) (P : Point) : Prop :=
  0 ≤ P.x ∧ P.x < c.p ∧ 0 ≤ P.y ∧ P.y < c.p

/-- The curve equation `y^2 = x^3 + a*x + b (mod p)` at the coordinates of `P`. -/
def on_curve (c : EllipticCurve) (P : Point) : Prop :=
  P.y ^ 2 ≡ P.x ^ 3 + c.a * P.x + c.b [ZMOD c.p]

instance (c : EllipticCurve) (P : Point) : Decidable (in_range c P) := by
  unfold in_range; infer_instance

instance (c : EllipticCurve) (P : Point) : Decidable (on_curve c P) := by
  unfold on_curve; infer_instance

/-- A point of the curve: infinity, or finite with coordinates in `[0, p - 1]`
satisfying the curve equation. -/
def is_point (c : EllipticCurve) (P : Point) : Prop :=
  P.inf = true ∨ (in_range c P ∧ on_curve c P)

/-! ### Exact runs, repeated addition and the group of the curve -/

/-- Observer used to state claims about exact arithmetic: `checked c inv` returns
what `inv` returns on each argument `n` for which the value `v` returned is an
inverse of `n` modulo `p` (`n * v ≡ 1`), and fails on every other argument. -/
def checked (c : EllipticCurve) (inv : Int → Except Error Int) (n : Int) : Except Error Int :=
  match inv n with
  | Except.error e => Except.error e
  | Except.ok v => if n * v ≡ 1 [ZMOD c.p] then Except.ok v else Except.error Error.runtime_error

/-- The run of `add(P, Q)` in which the value returned by `mod_inv`, if it is
called, is an inverse of its argument; it fails when `add` fails or when that
value is not an inverse. -/
def add_exact (c : EllipticCurve) (P Q : Point) : Except Error Point :=
  add_with c (checked c (mod_inv c)) P Q

/-- The run of `multiply(P, n)` in which every value returned by `mod_inv` is an
inverse of its argument. -/
def multiply_exact (c : EllipticCurve) (P : Point) (n : Int) : Except Error Point :=
  multiply_loop (add_exact c) Point.infinity P n

/-- Repeated addition with the routine `addf`: `rep 0 = infinity()` and
`rep (k + 1) = addf (rep k) P`, failing as soon as one addition fails. -/
def rep_with (addf : Point → Point → Except Error Point) (P : Point) : Nat → Except Error Point
  | 0 => Except.ok Point.infinity
  | k + 1 =>
    match rep_with addf P k with
    | Except.error e => Except.error e
    | Except.ok R => addf R P

/-- The point obtained by adding `P` to itself `n` times with `add`. -/
def rep (c : EllipticCurve) (P : Point) (n : Nat) : Except Error Point :=
  rep_with (add c) P n

/-- Repeated addition in which every value returned by `mod_inv` is an inverse
of its argument. -/
def rep_exact (c : EllipticCurve) (P : Point) (n : Nat) : Except Error Point :=
  rep_with (add_exact c) P n

/-- The Weierstrass curve `y^2 = x^3 + a*x + b` over `ZMod q` with the
coefficients of `c`. -/
def curve_mod (c : EllipticCurve) (q : Nat) : WeierstrassCurve.Affine (ZMod q) :=
  ⟨0, 0, 0, (c.a : ZMod q), (c.b : ZMod q)⟩

/-- The program point `P` represents the group element `G` of the curve over
`ZMod q`: `infinity()` represents zero, and a finite point with coordinates in
`[0, p - 1]` represents the affine point with the same coordinates modulo `q`. -/
def represents (c : EllipticCurve) (q : Nat) (P : Point) :
    (curve_mod c q).Point → Prop
  | WeierstrassCurve.Affine.Point.zero => P = Point.infinity
  | @WeierstrassCurve.Affine.Point.some _ _ _ x y _ =>
    P.inf = false ∧ in_range c P ∧ (P.x : ZMod q) = x ∧ (P.y : ZMod q) = y


/-- Invariant of the loop of `mod_inv` with modulus `p` on the state
`(t, newt, r, newr)`: `r` is not zero; `newt * r` and `t * newr` have opposite
signs and differ by `p`; and the coefficient `t` is small against `r`. -/
def bezout_inv (p t newt r newr : Int) : Prop :=
  r ≠ 0 ∧
  ((t * newr ≤ 0 ∧ 0 ≤ newt * r ∧ newt * r - t * newr = p) ∨
    (0 ≤ t * newr ∧ newt * r ≤ 0 ∧ t * newr - newt * r = p)) ∧
  (newr.natAbs < r.natAbs ∨ newt.natAbs ≤ 1) ∧
  (t.natAbs * (r.natAbs + 1) ≤ p.natAbs ∨ t.natAbs ≤ 1)

/-! ### Machine arithmetic: the 64-bit model -/

/-- The value `x` is representable as a signed 64-bit integer. -/
def in64 (x : Int) : Prop := -2 ^ 63 ≤ x ∧ x < 2 ^ 63

instance (x : Int) : Decidable (in64 x) := by
  unfold in64; infer_instance

/-- Two's-complement wrap-around of `x` to 64 bits. -/
def wrap64 (x : Int) : Int := (x + 2 ^ 63) % 2 ^ 64 - 2 ^ 63

/-- Result of an arithmetic operation in the wrap-around model: the exact
result reduced modulo `2^64` into the signed range. -/
def wrapped (x : Int) : Option Int := some (wrap64 x)

/-- Result of an arithmetic operation in the trapping model: the exact result
when it is representable, and no result (`none`) when it leaves the signed
64-bit range. -/
def trap64 (x : Int) : Option Int := if in64 x then some x else none

/-- The constructor with machine arithmetic: `w` gives the machine result of
every arithmetic operation of `4 * a * a * a + 27 * b * b % p`, in the order
the operations are nested. -/
def construct_m (w : Int → Option Int) (a b p : Int) : Option (Except Error EllipticCurve) := do
  let x1 ← w (4 * a)
  let x2 ← w (x1 * a)
  let x3 ← w (x2 * a)
  let y1 ← w (27 * b)
  let y2 ← w (y1 * b)
  let y3 ← w (Int.tmod y2 p)
  let s ← w (x3 + y3)
  pure (if s = 0 then Except.error Error.invalid_argument else Except.ok ⟨a, b, p⟩)

/-- The loop of `mod_inv` with machine arithmetic, iterated at most `k` times;
`none` when an operation has no machine result or the `k` steps are used up. -/
def mod_inv_loop_m (w : Int → Option Int) : Nat → Int → Int → Int → Int → Option (Int × Int)
  | 0, _, _, _, _ => none
  | k + 1, t, newt, r, newr =>
    if newr = 0 then some (t, r)
    else do
      let quotient ← w (Int.tdiv r newr)
      let qt ← w (quotient * newt)
      let t1 ← w (t - qt)
      let qr ← w (quotient * newr)
      let r1 ← w (r - qr)
      mod_inv_loop_m w k newt t1 newr r1

/-- The member `mod_inv(n)` with machine arithmetic; the loop is given
`|n| + 1` steps. -/
def mod_inv_m (w : Int → Option Int) (c : EllipticCurve) (n : Int) :
    Option (Except Error Int) := do
  let tr ← mod_inv_loop_m w (n.natAbs + 1) 0 1 c.p n
  if tr.2 > 1 then pure (Except.error Error.runtime_error)
  else if tr.1 < 0 then do
    let t1 ← w (tr.1 + c.p)
    pure (Except.ok t1)
  else pure (Except.ok tr.1)

/-- The slope computed by `add(P, Q)` with machine arithmetic. -/
def slope_m (w : Int → Option Int) (c : EllipticCurve) (P Q : Point) :
    Option (Except Error Int) :=
  if P.eq Q then do
    let x1 ← w (3 * P.x)
    let x2 ← w (x1 * P.x)
    let num ← w (x2 + c.a)
    let den ← w (2 * P.y)
    match ← mod_inv_m w c den with
    | Except.error e => pure (Except.error e)
    | Except.ok v => do
      let nv ← w (num * v)
      let m ← w (Int.tmod nv c.p)
      pure (Except.ok m)
  else do
    let num ← w (Q.y - P.y)
    let den ← w (Q.x - P.x)
    match ← mod_inv_m w c den with
    | Except.error e => pure (Except.error e)
    | Except.ok v => do
      let nv ← w (num * v)
      let m ← w (Int.tmod nv c.p)
      pure (Except.ok m)

/-- The member `add(P, Q)` with machine arithmetic. -/
def add_m (w : Int → Option Int) (c : EllipticCurve) (P Q : Point) :
    Option (Except Error Point) :=
  if P.inf then some (Except.ok Q)
  else if Q.inf then some (Except.ok P)
  else if P.x = Q.x ∧ P.y ≠ Q.y then some (Except.ok Point.infinity)
  else do
    match ← slope_m w c P Q with
    | Except.error e => pure (Except.error e)
    | Except.ok m => do
      let mm ← w (m * m)
      let u1 ← w (mm - P.x)
      let u2 ← w (u1 - Q.x)
      let x3 ← w (Int.tmod u2 c.p)
      let d ← w (P.x - x3)
      let md ← w (m * d)
      let u3 ← w (md - P.y)
      let y3 ← w (Int.tmod u3 c.p)
      let xp ← w (x3 + c.p)
      let xr ← w (Int.tmod xp c.p)
      let yp ← w (y3 + c.p)
      let yr ← w (Int.tmod yp c.p)
      pure (Except.ok (Point.finite xr yr))

/-- The loop of `multiply` with machine arithmetic, iterated at most `k` times. -/
def multiply_loop_m (w : Int → Option Int) (c : EllipticCurve) :
    Nat → Point → Point → Int → Option (Except Error Point)
  | 0, _, _, _ => none
  | k + 1, R, Q, n =>
    if n > 0 then do
      let bit ← w (Int.tmod n 2)
      match ← (if bit = 1 then add_m w c R Q else pure (Except.ok R)) with
      | Except.error e => pure (Except.error e)
      | Except.ok R1 =>
        match ← add_m w c Q Q with
        | Except.error e => pure (Except.error e)
        | Except.ok Q1 => do
          let n1 ← w (Int.tdiv n 2)
          multiply_loop_m w c k R1 Q1 n1
    else pure (Except.ok R)

/-- The member `multiply(P, n)` with machine arithmetic; the loop is given
`n + 1` steps. -/
def multiply_m (w : Int → Option Int) (c : EllipticCurve) (P : Point) (n : Int) :
    Option (Except Error Point) :=
  multiply_loop_m w c (n.toNat + 1) Point.infinity P n

/-- Repeated addition with machine arithmetic: `rep 0 = infinity()` and
`rep (k + 1) = add (rep k) P`, every addition computed by `add_m`. -/
def rep_m (w : Int → Option Int) (c : EllipticCurve) (P : Point) :
    Nat → Option (Except Error Point)
  | 0 => some (Except.ok Point.infinity)
  | k + 1 =>
    match rep_m w c P k with
    | none => none
    | some (Except.error e) => some (Except.error e)
    | some (Except.ok R) => add_m w c R P

/-! ### Unfolding and evaluation lemmas -/

theorem mod_inv_loop_zero (t newt r : Int) : mod_inv_loop t newt r 0 = (t, r) := by
  rw [mod_inv_loop]; simp

theorem mod_inv_loop_step (t newt r newr : Int) (h : newr ≠ 0) :
    mod_inv_loop t newt r newr =
      mod_inv_loop newt (t - Int.tdiv r newr * newt) newr (r - Int.tdiv r newr * newr) := by
  rw [mod_inv_loop]; simp [h]

theorem sub_tdiv_mul_eq_tmod (r newr : Int) : r - Int.tdiv r newr * newr = Int.tmod r newr := by
  have := Int.tmod_add_tdiv r newr
  linarith [mul_comm newr (Int.tdiv r newr)]

theorem natAbs_tmod (r newr : Int) : (Int.tmod r newr).natAbs = r.natAbs % newr.natAbs := by
  cases r <;> cases newr <;> simp [Int.tmod] <;> rfl

theorem mod_inv_loop_fuel_eq (k : Nat) : ∀ (t newt r newr : Int), newr.natAbs < k →
    mod_inv_loop_fuel k t newt r newr = mod_inv_loop t newt r newr := by
  induction k with
  | zero => intro t newt r newr h; omega
  | succ k ih =>
    intro t newt r newr h
    by_cases h0 : newr = 0
    · subst h0; simp [mod_inv_loop_fuel, mod_inv_loop_zero]
    · rw [mod_inv_loop_step _ _ _ _ h0, mod_inv_loop_fuel, if_neg h0]
      apply ih
      rw [sub_tdiv_mul_eq_tmod, natAbs_tmod]
      have := Nat.mod_lt r.natAbs (Int.natAbs_pos.mpr h0)
      omega

theorem mod_inv_eval_eq (c : EllipticCurve) (n : Int) : mod_inv_eval c n = mod_inv c n := by
  unfold mod_inv_eval mod_inv
  rw [mod_inv_loop_fuel_eq _ _ _ _ _ (Nat.lt_succ_self _)]

theorem add_eval_eq (c : EllipticCurve) : add_eval c = add c := by
  funext P Q
  have : mod_inv_eval c = mod_inv c := funext (mod_inv_eval_eq c)
  unfold add_eval add
  rw [this]

theorem multiply_loop_nonpos (addf : Point → Point → Except Error Point) (R Q : Point) (n : Int)
    (h : ¬ n > 0) : multiply_loop addf R Q n = Except.ok R := by
  rw [multiply_loop]; simp [h]

theorem multiply_loop_step (addf : Point → Point → Except Error Point) (R Q : Point) (n : Int)
    (h : n > 0) : multiply_loop addf R Q n =
      match (if Int.tmod n 2 = 1 then addf R Q else Except.ok R) with
      | Except.error e => Except.error e
      | Except.ok R1 =>
        match addf Q Q with
        | Except.error e => Except.error e
        | Except.ok Q1 => multiply_loop addf R1 Q1 (Int.tdiv n 2) := by
  rw [multiply_loop]; simp [h]

theorem multiply_loop_fuel_eq (addf : Point → Point → Except Error Point) (k : Nat) :
    ∀ (R Q : Point) (n : Int), n.toNat < k →
      multiply_loop_fuel addf k R Q n = multiply_loop addf R Q n := by
  induction k with
  | zero => intro R Q n h; omega
  | succ k ih =>
    intro R Q n h
    by_cases h0 : n > 0
    · rw [multiply_loop_step _ _ _ _ h0, multiply_loop_fuel, if_pos h0]
      have hlt : (Int.tdiv n 2).toNat < k := by
        have : Int.tdiv n 2 = n / 2 := Int.tdiv_eq_ediv (by omega) (by omega)
        omega
      cases hR : (if Int.tmod n 2 = 1 then addf R Q else Except.ok R) with
      | error e => rfl
      | ok R1 =>
        cases hQ : addf Q Q with
        | error e => simp
        | ok Q1 => simp [ih _ _ _ hlt]
    · rw [multiply_loop_nonpos _ _ _ _ h0, multiply_loop_fuel, if_neg h0]

theorem multiply_eval_eq (c : EllipticCurve) (P : Point) (n : Int) :
    multiply_eval c P n = multiply c P n := by
  unfold multiply_eval multiply
  rw [multiply_loop_fuel_eq _ _ _ _ _ (Nat.lt_succ_self _), add_eval_eq]


/-! ### Exact runs simulate the group law of the curve over `ZMod p` -/

theorem cast_tmod (q : Nat) (z p : Int) (hq : p = q) :
    ((Int.tmod z p : Int) : ZMod q) = (z : ZMod q) := by
  subst hq
  have h := Int.tmod_add_tdiv z q
  have h2 : ((Int.tmod z q + q * Int.tdiv z q : Int) : ZMod q) = (z : ZMod q) := by rw [h]
  simpa using h2

theorem tmod_add_tmod_range (z p : Int) (hp : 0 < p) :
    0 ≤ Int.tmod (Int.tmod z p + p) p ∧ Int.tmod (Int.tmod z p + p) p < p := by
  have h1 : -p < Int.tmod z p := by
    have h := natAbs_tmod z p
    have h2 := Nat.mod_lt z.natAbs (Int.natAbs_pos.mpr hp.ne')
    omega
  have h3 : 0 ≤ Int.tmod z p + p := by omega
  rw [Int.tmod_eq_emod h3 hp.le]
  exact ⟨Int.emod_nonneg _ hp.ne', Int.emod_lt_of_pos _ hp⟩

theorem eq_of_cast_eq (q : Nat) (x y : Int) (hx : 0 ≤ x) (hxq : x < q) (hy : 0 ≤ y) (hyq : y < q)
    (h : (x : ZMod q) = (y : ZMod q)) : x = y := by
  have h1 := (ZMod.intCast_eq_intCast_iff x y q).mp h
  have h2 := h1.eq
  rwa [Int.emod_eq_of_lt hx hxq, Int.emod_eq_of_lt hy hyq] at h2

theorem checked_ok (c : EllipticCurve) (inv : Int → Except Error Int) (n v : Int)
    (h : checked c inv n = Except.ok v) : inv n = Except.ok v ∧ n * v ≡ 1 [ZMOD c.p] := by
  unfold checked at h
  cases hi : inv n with
  | error e => rw [hi] at h; cases h
  | ok w =>
    rw [hi] at h
    simp only [] at h
    split at h
    · cases h; exact ⟨rfl, by assumption⟩
    · cases h

/-- The slope branch of `add`: the argument passed to the inverse routine, the
slope numerator, and the point returned. -/
theorem add_with_slope (c : EllipticCurve) (inv : Int → Except Error Int) (P Q R : Point)
    (hP : P.inf = false) (hQ : Q.inf = false) (hb : ¬ (P.x = Q.x ∧ P.y ≠ Q.y))
    (h : add_with c inv P Q = Except.ok R) :
    ∃ v, inv (if P.eq Q then 2 * P.y else Q.x - P.x) = Except.ok v ∧
      R = Point.finite
        (Int.tmod (Int.tmod
          (Int.tmod ((if P.eq Q then 3 * P.x * P.x + c.a else Q.y - P.y) * v) c.p *
            Int.tmod ((if P.eq Q then 3 * P.x * P.x + c.a else Q.y - P.y) * v) c.p -
            P.x - Q.x) c.p + c.p) c.p)
        (Int.tmod (Int.tmod
          (Int.tmod ((if P.eq Q then 3 * P.x * P.x + c.a else Q.y - P.y) * v) c.p *
            (P.x - Int.tmod
              (Int.tmod ((if P.eq Q then 3 * P.x * P.x + c.a else Q.y - P.y) * v) c.p *
                Int.tmod ((if P.eq Q then 3 * P.x * P.x + c.a else Q.y - P.y) * v) c.p -
                P.x - Q.x) c.p) - P.y) c.p + c.p) c.p) := by
  unfold add_with at h
  simp only [hP, hQ, if_neg hb, Bool.false_eq_true, if_false] at h
  cases he : P.eq Q with
  | true =>
    simp only [he, if_true] at h ⊢
    cases hi : inv (2 * P.y) with
    | error e => rw [hi] at h; cases h
    | ok v =>
      rw [hi] at h
      simp only [] at h
      cases h
      exact ⟨v, rfl, rfl⟩
  | false =>
    simp only [he, Bool.false_eq_true, if_false] at h ⊢
    cases hi : inv (Q.x - P.x) with
    | error e => rw [hi] at h; cases h
    | ok v =>
      rw [hi] at h
      simp only [] at h
      cases h
      exact ⟨v, rfl, rfl⟩

theorem add_with_checked_represents (c : EllipticCurve) (q : Nat) [Fact q.Prime]
    (hq : c.p = q) (inv : Int → Except Error Int) (P Q R : Point)
    (G H : (curve_mod c q).Point) (hP : represents c q P G) (hQ : represents c q Q H)
    (h : add_with c (checked c inv) P Q = Except.ok R) : represents c q R (G + H) := by
  have hp0 : 0 < c.p := by
    rw [hq]; exact_mod_cast (Fact.out : q.Prime).pos
  cases G with
  | zero =>
    have hP1 : P = Point.infinity := hP
    subst hP1
    have hR : R = Q := by
      have : add_with c (checked c inv) Point.infinity Q = Except.ok Q := rfl
      rw [this] at h; cases h; rfl
    subst hR
    rw [WeierstrassCurve.Affine.Point.zero_def, zero_add]; exact hQ
  | @some x₁ y₁ h₁ =>
    obtain ⟨hPinf, hPr, hPx, hPy⟩ := hP
    cases H with
    | zero =>
      have hQ1 : Q = Point.infinity := hQ
      subst hQ1
      have hR : R = P := by
        have : add_with c (checked c inv) P Point.infinity = Except.ok P := by
          simp [add_with, hPinf, Point.infinity]
        rw [this] at h; cases h; rfl
      subst hR
      rw [WeierstrassCurve.Affine.Point.zero_def, add_zero]; exact ⟨hPinf, hPr, hPx, hPy⟩
    | @some x₂ y₂ h₂ =>
      obtain ⟨hQinf, hQr, hQx, hQy⟩ := hQ
      subst hPx hPy hQx hQy
      have hRr : ∀ z w : Int, in_range c (Point.finite
          (Int.tmod (Int.tmod z c.p + c.p) c.p) (Int.tmod (Int.tmod w c.p + c.p) c.p)) :=
        fun z w => ⟨(tmod_add_tmod_range z c.p hp0).1, (tmod_add_tmod_range z c.p hp0).2,
          (tmod_add_tmod_range w c.p hp0).1, (tmod_add_tmod_range w c.p hp0).2⟩
      unfold in_range at hPr hQr
      rw [hq] at hPr hQr
      have hcp : ((c.p : Int) : ZMod q) = 0 := by rw [hq]; simp
      have e₁ := ((curve_mod c q).equation_iff _ _).mp h₁.1
      have e₂ := ((curve_mod c q).equation_iff _ _).mp h₂.1
      simp only [curve_mod] at e₁ e₂
      by_cases hb : P.x = Q.x ∧ P.y ≠ Q.y
      · have hR : R = Point.infinity := by
          have : add_with c (checked c inv) P Q = Except.ok Point.infinity := by
            simp [add_with, hPinf, hQinf, hb]
          rw [this] at h; cases h; rfl
        subst hR
        have hx : (P.x : ZMod q) = (Q.x : ZMod q) := by rw [hb.1]
        have hyne : (P.y : ZMod q) ≠ (Q.y : ZMod q) := by
          intro hc
          apply hb.2
          exact eq_of_cast_eq q _ _ hPr.2.2.1 hPr.2.2.2 hQr.2.2.1 hQr.2.2.2 hc
        have hy : (P.y : ZMod q) = (curve_mod c q).negY (Q.x : ZMod q) (Q.y : ZMod q) := by
          simp only [WeierstrassCurve.Affine.negY, curve_mod]
          have : ((P.y : ZMod q) - Q.y) * ((P.y : ZMod q) + Q.y) = 0 := by
            rw [hx] at e₁
            linear_combination e₁ - e₂
          rcases mul_eq_zero.mp this with h0 | h0
          · exact absurd (sub_eq_zero.mp h0) hyne
          · linear_combination h0
        rw [WeierstrassCurve.Affine.Point.add_of_Y_eq hx hy]
        rfl
      · obtain ⟨v, hv, hR⟩ := add_with_slope c (checked c inv) P Q R hPinf hQinf hb h
        obtain ⟨-, hcong⟩ := checked_ok c inv _ v hv
        rw [hq] at hcong
        have hcong1 := (ZMod.intCast_eq_intCast_iff _ _ q).mpr hcong
        cases he : P.eq Q with
        | true =>
          simp only [he, if_true] at hR hcong1
          have hxy : P.x = Q.x ∧ P.y = Q.y := by
            simp [Point.eq, hPinf, hQinf] at he
            exact he
          have hx : (P.x : ZMod q) = (Q.x : ZMod q) := by rw [hxy.1]
          have hyy : (P.y : ZMod q) = (Q.y : ZMod q) := by rw [hxy.2]
          push_cast at hcong1
          have hy : (P.y : ZMod q) ≠ (curve_mod c q).negY (Q.x : ZMod q) (Q.y : ZMod q) := by
            simp only [WeierstrassCurve.Affine.negY, curve_mod]
            intro hc
            have h0 : (2 : ZMod q) * P.y = 0 := by
              rw [← hyy] at hc
              linear_combination hc
            rw [h0, zero_mul] at hcong1
            exact zero_ne_one hcong1
          have hden : (P.y : ZMod q) - (curve_mod c q).negY (P.x : ZMod q) (P.y : ZMod q) ≠ 0 := by
            simp only [WeierstrassCurve.Affine.negY, curve_mod]
            intro hc
            have h0 : (2 : ZMod q) * P.y = 0 := by linear_combination hc
            rw [h0, zero_mul] at hcong1
            exact zero_ne_one hcong1
          have hslope : (curve_mod c q).slope (P.x : ZMod q) Q.x P.y Q.y =
              ((3 * (P.x : ZMod q) * P.x + c.a) * v) := by
            rw [WeierstrassCurve.Affine.slope_of_Y_ne hx hy, div_eq_iff hden]
            simp only [WeierstrassCurve.Affine.negY, curve_mod]
            linear_combination (-(3 * (P.x : ZMod q) * P.x + c.a)) * hcong1
          rw [WeierstrassCurve.Affine.Point.add_of_Y_ne hy]
          subst hR
          refine ⟨rfl, hRr _ _, ?_, ?_⟩
          · rw [hslope]
            simp only [Point.finite, WeierstrassCurve.Affine.addX, curve_mod, cast_tmod q _ _ hq, Int.cast_add,
              Int.cast_mul, Int.cast_sub, hcp, Int.cast_ofNat]
            ring
          · rw [hslope]
            simp only [Point.finite, WeierstrassCurve.Affine.addX, WeierstrassCurve.Affine.addY,
              WeierstrassCurve.Affine.negAddY, WeierstrassCurve.Affine.negY, curve_mod, cast_tmod q _ _ hq,
              Int.cast_add, Int.cast_mul, Int.cast_sub, hcp, Int.cast_ofNat]
            ring
        | false =>
          simp only [he, Bool.false_eq_true, if_false] at hR hcong1
          have hxne : P.x ≠ Q.x := by
            intro hc
            by_cases hyc : P.y = Q.y
            · simp [Point.eq, hPinf, hQinf, hc, hyc] at he
            · exact hb ⟨hc, hyc⟩
          have hx : (P.x : ZMod q) ≠ (Q.x : ZMod q) := by
            intro hc
            exact hxne (eq_of_cast_eq q _ _ hPr.1 hPr.2.1 hQr.1 hQr.2.1 hc)
          push_cast at hcong1
          have hslope : (curve_mod c q).slope (P.x : ZMod q) Q.x P.y Q.y =
              (((Q.y : ZMod q) - P.y) * v) := by
            rw [WeierstrassCurve.Affine.slope_of_X_ne hx, div_eq_iff (sub_ne_zero.mpr hx)]
            linear_combination ((Q.y : ZMod q) - P.y) * hcong1
          rw [WeierstrassCurve.Affine.Point.add_of_X_ne hx]
          subst hR
          refine ⟨rfl, hRr _ _, ?_, ?_⟩
          · rw [hslope]
            simp only [Point.finite, WeierstrassCurve.Affine.addX, curve_mod, cast_tmod q _ _ hq, Int.cast_add,
              Int.cast_mul, Int.cast_sub, hcp]
            ring
          · rw [hslope]
            simp only [Point.finite, WeierstrassCurve.Affine.addX, WeierstrassCurve.Affine.addY,
              WeierstrassCurve.Affine.negAddY, WeierstrassCurve.Affine.negY, curve_mod, cast_tmod q _ _ hq,
              Int.cast_add, Int.cast_mul, Int.cast_sub, hcp]
            ring

theorem represents_unique (c : EllipticCurve) (q : Nat) (hq : c.p = q) (R R' : Point)
    (G : (curve_mod c q).Point) (h : represents c q R G) (h' : represents c q R' G) :
    R = R' := by
  cases G with
  | zero =>
    have h1 : R = Point.infinity := h
    have h2 : R' = Point.infinity := h'
    rw [h1, h2]
  | @some x y hxy =>
    obtain ⟨hi, hr, hx, hy⟩ := h
    obtain ⟨hi', hr', hx', hy'⟩ := h'
    unfold in_range at hr hr'
    rw [hq] at hr hr'
    have ex := eq_of_cast_eq q _ _ hr.1 hr.2.1 hr'.1 hr'.2.1 (hx.trans hx'.symm)
    have ey := eq_of_cast_eq q _ _ hr.2.2.1 hr.2.2.2 hr'.2.2.1 hr'.2.2.2 (hy.trans hy'.symm)
    cases R; cases R'
    simp only [Point.mk.injEq] at *
    exact ⟨ex, ey, hi.trans hi'.symm⟩

theorem multiply_loop_represents (c : EllipticCurve) (q : Nat) [Fact q.Prime]
    (hq : c.p = q) (inv : Int → Except Error Int) (k : Nat) :
    ∀ (n : Int) (R Q R' : Point) (G H : (curve_mod c q).Point), n.toNat < k →
      represents c q R G → represents c q Q H →
      multiply_loop (add_with c (checked c inv)) R Q n = Except.ok R' →
      represents c q R' (G + n.toNat • H) := by
  induction k with
  | zero => intro n R Q R' G H hk; omega
  | succ k ih =>
    intro n R Q R' G H hk hR hQ h
    by_cases h0 : n > 0
    · rw [multiply_loop_step _ _ _ _ h0] at h
      have hdiv : Int.tdiv n 2 = n / 2 := Int.tdiv_eq_ediv (by omega) (by omega)
      have hmod : Int.tmod n 2 = n % 2 := Int.tmod_eq_emod (by omega) (by omega)
      have hlt : (Int.tdiv n 2).toNat < k := by omega
      cases hR1 : (if Int.tmod n 2 = 1 then add_with c (checked c inv) R Q else Except.ok R) with
      | error e => rw [hR1] at h; cases h
      | ok R1 =>
        rw [hR1] at h
        simp only [] at h
        cases hQ1 : add_with c (checked c inv) Q Q with
        | error e => rw [hQ1] at h; cases h
        | ok Q1 =>
          rw [hQ1] at h
          simp only [] at h
          have hQ1r := add_with_checked_represents c q hq inv Q Q Q1 H H hQ hQ hQ1
          by_cases hodd : Int.tmod n 2 = 1
          · rw [if_pos hodd] at hR1
            have hR1r := add_with_checked_represents c q hq inv R Q R1 G H hR hQ hR1
            have := ih _ R1 Q1 R' _ _ hlt hR1r hQ1r h
            have e : n.toNat = 2 * (Int.tdiv n 2).toNat + 1 := by omega
            rw [e, add_nsmul, mul_nsmul, two_nsmul, one_nsmul,
              add_comm ((Int.tdiv n 2).toNat • (H + H)) H, ← add_assoc]
            exact this
          · rw [if_neg hodd] at hR1
            cases hR1
            have := ih _ R Q1 R' _ _ hlt hR hQ1r h
            have e : n.toNat = 2 * (Int.tdiv n 2).toNat := by omega
            rw [e, mul_nsmul, two_nsmul]
            exact this
    · rw [multiply_loop_nonpos _ _ _ _ h0] at h
      cases h
      have e : n.toNat = 0 := by omega
      rw [e, zero_nsmul, add_zero]
      exact hR

theorem rep_with_represents (c : EllipticCurve) (q : Nat) [Fact q.Prime]
    (hq : c.p = q) (inv : Int → Except Error Int) (P : Point) (G : (curve_mod c q).Point)
    (hP : represents c q P G) :
    ∀ (n : Nat) (R : Point), rep_with (add_with c (checked c inv)) P n = Except.ok R →
      represents c q R (n • G) := by
  intro n
  induction n with
  | zero =>
    intro R h
    have : R = Point.infinity := by
      simp only [rep_with] at h; cases h; rfl
    subst this
    rw [zero_nsmul]
    rfl
  | succ n ih =>
    intro R h
    simp only [rep_with] at h
    cases hR0 : rep_with (add_with c (checked c inv)) P n with
    | error e => rw [hR0] at h; cases h
    | ok R0 =>
      rw [hR0] at h
      simp only [] at h
      have := add_with_checked_represents c q hq inv R0 P R _ _ (ih R0 hR0) hP h
      rw [succ_nsmul]
      exact this

theorem add_with_of_checked (c : EllipticCurve) (inv : Int → Except Error Int) (P Q R : Point)
    (h : add_with c (checked c inv) P Q = Except.ok R) : add_with c inv P Q = Except.ok R := by
  cases hP : P.inf with
  | true => simpa [add_with, hP] using h
  | false =>
    cases hQ : Q.inf with
    | true => simpa [add_with, hP, hQ] using h
    | false =>
      by_cases hb : P.x = Q.x ∧ P.y ≠ Q.y
      · simpa [add_with, hP, hQ, hb] using h
      · obtain ⟨v, hv, hR⟩ := add_with_slope c (checked c inv) P Q R hP hQ hb h
        obtain ⟨hinv, -⟩ := checked_ok c inv _ v hv
        unfold add_with
        simp only [hP, hQ, if_neg hb, Bool.false_eq_true, if_false]
        cases he : P.eq Q with
        | true =>
          simp only [he, if_true] at hinv hR ⊢
          rw [hinv, hR]
        | false =>
          simp only [he, Bool.false_eq_true, if_false] at hinv hR ⊢
          rw [hinv, hR]

theorem add_of_add_exact (c : EllipticCurve) (P Q R : Point)
    (h : add_exact c P Q = Except.ok R) : add c P Q = Except.ok R :=
  add_with_of_checked c (mod_inv c) P Q R h

theorem multiply_loop_mono (f g : Point → Point → Except Error Point)
    (hfg : ∀ P Q R, f P Q = Except.ok R → g P Q = Except.ok R) (k : Nat) :
    ∀ (n : Int) (R Q R' : Point), n.toNat < k →
      multiply_loop f R Q n = Except.ok R' → multiply_loop g R Q n = Except.ok R' := by
  induction k with
  | zero => intro n R Q R' hk; omega
  | succ k ih =>
    intro n R Q R' hk h
    by_cases h0 : n > 0
    · rw [multiply_loop_step _ _ _ _ h0] at h ⊢
      have hdiv : Int.tdiv n 2 = n / 2 := Int.tdiv_eq_ediv (by omega) (by omega)
      have hlt : (Int.tdiv n 2).toNat < k := by omega
      by_cases hodd : Int.tmod n 2 = 1
      · simp only [if_pos hodd] at h ⊢
        cases hR1 : f R Q with
        | error e => rw [hR1] at h; cases h
        | ok R1 =>
          rw [hR1] at h
          rw [hfg _ _ _ hR1]
          simp only [] at h ⊢
          cases hQ1 : f Q Q with
          | error e => rw [hQ1] at h; cases h
          | ok Q1 =>
            rw [hQ1] at h
            rw [hfg _ _ _ hQ1]
            exact ih _ _ _ _ hlt h
      · simp only [if_neg hodd] at h ⊢
        cases hQ1 : f Q Q with
        | error e => rw [hQ1] at h; cases h
        | ok Q1 =>
          rw [hQ1] at h
          rw [hfg _ _ _ hQ1]
          exact ih _ _ _ _ hlt h
    · rw [multiply_loop_nonpos _ _ _ _ h0] at h ⊢
      exact h

theorem multiply_of_multiply_exact (c : EllipticCurve) (P R : Point) (n : Int)
    (h : multiply_exact c P n = Except.ok R) : multiply c P n = Except.ok R :=
  multiply_loop_mono (add_exact c) (add c) (add_of_add_exact c) (n.toNat + 1) n _ _ _
    (Nat.lt_succ_self _) h

theorem rep_with_mono (f g : Point → Point → Except Error Point)
    (hfg : ∀ P Q R, f P Q = Except.ok R → g P Q = Except.ok R) (P : Point) :
    ∀ (n : Nat) (R : Point), rep_with f P n = Except.ok R → rep_with g P n = Except.ok R := by
  intro n
  induction n with
  | zero => intro R h; exact h
  | succ n ih =>
    intro R h
    simp only [rep_with] at h ⊢
    cases hR0 : rep_with f P n with
    | error e => rw [hR0] at h; cases h
    | ok R0 =>
      rw [hR0] at h
      rw [ih R0 hR0]
      exact hfg _ _ _ h

theorem rep_of_rep_exact (c : EllipticCurve) (P R : Point) (n : Nat)
    (h : rep_exact c P n = Except.ok R) : rep c P n = Except.ok R :=
  rep_with_mono (add_exact c) (add c) (add_of_add_exact c) P n R h

theorem multiply_loop_first_double (f : Point → Point → Except Error Point) (R Q R' : Point)
    (n : Int) (h0 : n > 0) (h : multiply_loop f R Q n = Except.ok R') :
    ∃ Q1, f Q Q = Except.ok Q1 := by
  rw [multiply_loop_step _ _ _ _ h0] at h
  cases hR1 : (if Int.tmod n 2 = 1 then f R Q else Except.ok R) with
  | error e => rw [hR1] at h; cases h
  | ok R1 =>
    rw [hR1] at h
    simp only [] at h
    cases hQ1 : f Q Q with
    | error e => rw [hQ1] at h; cases h
    | ok Q1 => exact ⟨Q1, rfl⟩

theorem nonsingular_of_double (c : EllipticCurve) (q : Nat) [Fact q.Prime] (hq : c.p = q)
    (inv : Int → Except Error Int) (P Q1 : Point) (hfin : P.inf = false) (hon : on_curve c P)
    (h : add_with c (checked c inv) P P = Except.ok Q1) :
    (curve_mod c q).Nonsingular (P.x : ZMod q) (P.y : ZMod q) := by
  obtain ⟨v, hv, -⟩ := add_with_slope c (checked c inv) P P Q1 hfin hfin (by simp) h
  obtain ⟨-, hcong⟩ := checked_ok c inv _ v hv
  have he : P.eq P = true := by simp [Point.eq]
  simp only [he, if_true] at hcong
  rw [hq] at hcong
  have hcong1 := (ZMod.intCast_eq_intCast_iff _ _ q).mpr hcong
  push_cast at hcong1
  unfold on_curve at hon
  rw [hq] at hon
  have hon1 := (ZMod.intCast_eq_intCast_iff _ _ q).mpr hon
  push_cast at hon1
  rw [WeierstrassCurve.Affine.nonsingular_iff, WeierstrassCurve.Affine.equation_iff]
  simp only [curve_mod]
  refine ⟨by linear_combination hon1, Or.inr ?_⟩
  intro hc
  have h0 : (2 : ZMod q) * P.y = 0 := by linear_combination hc
  rw [h0, zero_mul] at hcong1
  exact zero_ne_one hcong1

theorem construct_ok (a b p : Int) (c : EllipticCurve) (hc : construct a b p = Except.ok c) :
    c = ⟨a, b, p⟩ := by
  unfold construct at hc
  split at hc
  · cases hc
  · cases hc; rfl

theorem multiply_exact_eval (c : EllipticCurve) (P : Point) (n : Int) :
    multiply_loop_fuel (add_with c (checked c (mod_inv_eval c))) (n.toNat + 1)
      Point.infinity P n = multiply_exact c P n := by
  have : mod_inv_eval c = mod_inv c := funext (mod_inv_eval_eq c)
  unfold multiply_exact add_exact
  rw [multiply_loop_fuel_eq _ _ _ _ _ (Nat.lt_succ_self _), this]

theorem rep_exact_eval (c : EllipticCurve) (P : Point) (n : Nat) :
    rep_with (add_with c (checked c (mod_inv_eval c))) P n = rep_exact c P n := by
  have : mod_inv_eval c = mod_inv c := funext (mod_inv_eval_eq c)
  unfold rep_exact add_exact
  rw [this]

theorem add_exact_eval (c : EllipticCurve) (P Q : Point) :
    add_with c (checked c (mod_inv_eval c)) P Q = add_exact c P Q := by
  have : mod_inv_eval c = mod_inv c := funext (mod_inv_eval_eq c)
  unfold add_exact
  rw [this]

theorem rep_eval (c : EllipticCurve) (P : Point) (n : Nat) :
    rep_with (add_eval c) P n = rep c P n := by
  unfold rep
  rw [add_eval_eq]


/-! ### `mod_inv` on non-negative arguments, and the demonstration of `main` -/

/-- Invariant of the loop of `mod_inv(n)` with modulus `p`: both coefficient
tracks stay congruent to their remainders times `n`, the gcd of the two
remainders is preserved, and non-negative remainders stay non-negative. -/
theorem mod_inv_loop_invariant (p n : Int) (k : Nat) :
    ∀ (t newt r newr : Int), newr.natAbs < k →
      t * n ≡ r [ZMOD p] → newt * n ≡ newr [ZMOD p] →
      (mod_inv_loop t newt r newr).1 * n ≡ (mod_inv_loop t newt r newr).2 [ZMOD p] ∧
      ((mod_inv_loop t newt r newr).2.natAbs = Int.gcd r newr) ∧
      (0 < r → 0 ≤ newr → 0 < (mod_inv_loop t newt r newr).2) := by
  induction k with
  | zero => intro t newt r newr h; omega
  | succ k ih =>
    intro t newt r newr h h1 h2
    by_cases h0 : newr = 0
    · subst h0
      rw [mod_inv_loop_zero]
      exact ⟨h1, by simp, fun hr _ => hr⟩
    · rw [mod_inv_loop_step _ _ _ _ h0]
      have hdec : (r - Int.tdiv r newr * newr).natAbs < k := by
        rw [sub_tdiv_mul_eq_tmod, natAbs_tmod]
        have := Nat.mod_lt r.natAbs (Int.natAbs_pos.mpr h0)
        omega
      have h3 : (t - Int.tdiv r newr * newt) * n ≡ r - Int.tdiv r newr * newr [ZMOD p] := by
        have := Int.ModEq.sub h1 (Int.ModEq.mul_left (Int.tdiv r newr) h2)
        have e : (t - Int.tdiv r newr * newt) * n = t * n - Int.tdiv r newr * (newt * n) := by
          ring
        rw [e]
        exact this
      obtain ⟨i1, i2, i3⟩ := ih newt (t - Int.tdiv r newr * newt) newr
        (r - Int.tdiv r newr * newr) hdec h2 h3
      refine ⟨i1, ?_, ?_⟩
      · rw [i2, sub_tdiv_mul_eq_tmod]
        unfold Int.gcd
        rw [natAbs_tmod, Nat.gcd_comm r.natAbs, Nat.gcd_rec newr.natAbs r.natAbs, Nat.gcd_comm]
      · intro hr hnr
        apply i3
        · omega
        · rw [sub_tdiv_mul_eq_tmod]
          exact Int.tmod_nonneg _ hr.le

/-- For a positive modulus and a non-negative argument `n`, `mod_inv(n)` meets
its contract: it returns an inverse of `n` modulo `p` when `gcd(p, n) = 1`, and
fails with the no-inverse error when `gcd(p, n) > 1`. -/
theorem mod_inv_of_nonneg (c : EllipticCurve) (n : Int) (hp : 0 < c.p) (hn : 0 ≤ n) :
    (Int.gcd c.p n = 1 → ∃ v, mod_inv c n = Except.ok v ∧ n * v ≡ 1 [ZMOD c.p]) ∧
      (1 < Int.gcd c.p n → mod_inv c n = Except.error Error.runtime_error) := by
  obtain ⟨i1, i2, i3⟩ := mod_inv_loop_invariant c.p n (n.natAbs + 1) 0 1 c.p n
    (Nat.lt_succ_self _)
    (by rw [zero_mul]; exact (Int.modEq_zero_iff_dvd.mpr (dvd_refl _)).symm)
    (by rw [one_mul])
  have i4 := i3 hp hn
  have hr : (mod_inv_loop 0 1 c.p n).2 = Int.gcd c.p n := by omega
  constructor
  · intro hg
    rw [hg] at hr
    have hr1 : ¬ (mod_inv_loop 0 1 c.p n).2 > 1 := by rw [hr]; decide
    rw [hr] at i1
    unfold mod_inv
    simp only [hr1, if_false]
    by_cases ht : (mod_inv_loop 0 1 c.p n).1 < 0
    · refine ⟨(mod_inv_loop 0 1 c.p n).1 + c.p, by simp [ht], ?_⟩
      have e : n * ((mod_inv_loop 0 1 c.p n).1 + c.p) =
          (mod_inv_loop 0 1 c.p n).1 * n + c.p * n := by ring
      rw [e]
      have : (mod_inv_loop 0 1 c.p n).1 * n + c.p * n ≡ 1 + 0 [ZMOD c.p] :=
        Int.ModEq.add i1 (by
          have : c.p * n ≡ 0 [ZMOD c.p] := (Int.modEq_zero_iff_dvd).mpr (Dvd.intro _ rfl)
          exact this)
      simpa using this
    · refine ⟨(mod_inv_loop 0 1 c.p n).1, by simp [ht], ?_⟩
      rw [mul_comm]; exact_mod_cast i1
  · intro hg
    have hr1 : (mod_inv_loop 0 1 c.p n).2 > 1 := by rw [hr]; exact_mod_cast hg
    unfold mod_inv
    simp only [hr1, if_true]

/-- On a non-negative argument every value `mod_inv` returns is an inverse, so
the exact run and the run of the program coincide there. -/
theorem checked_mod_inv_of_nonneg (c : EllipticCurve) (n : Int) (hp : 0 < c.p) (hn : 0 ≤ n) :
    checked c (mod_inv c) n = mod_inv c n := by
  obtain ⟨h1, h2⟩ := mod_inv_of_nonneg c n hp hn
  have hg : Int.gcd c.p n = 1 ∨ 1 < Int.gcd c.p n := by
    have : Int.gcd c.p n ≠ 0 := by
      intro h0
      have := (Int.gcd_eq_zero_iff.mp h0).1
      omega
    omega
  rcases hg with hg | hg
  · obtain ⟨v, hv, hc⟩ := h1 hg
    unfold checked
    rw [hv]
    simp [hc]
  · unfold checked
    rw [h2 hg]

/-- The part of C3 that the constructor does satisfy: `a = 0`, `b = 0` is
rejected for every `p`. -/
theorem construct_zero_zero (p : Int) :
    construct 0 0 p = Except.error Error.invalid_argument := by
  simp [construct]

/-- The demonstration of `main`: on the curve `(2, 3, 97)` with `P = (3, 6)`,
`mod_inv(12) = 89`, the slope is `(3*9 + 2) * 89 mod 97 = 59`, and
`multiply(P, 2)` and `add(P, P)` both return `(80, 10)`. -/
theorem multiply_two_demo :
    mod_inv ⟨2, 3, 97⟩ (2 * 6) = Except.ok 89 ∧ Int.tmod ((3 * 3 * 3 + 2) * 89) 97 = 59 ∧
      add ⟨2, 3, 97⟩ (Point.finite 3 6) (Point.finite 3 6) = Except.ok (Point.finite 80 10) ∧
      multiply ⟨2, 3, 97⟩ (Point.finite 3 6) 2 = Except.ok (Point.finite 80 10) := by
  refine ⟨?_, by decide, ?_, ?_⟩
  · rw [← mod_inv_eval_eq]; rfl
  · rw [← add_eval_eq]; rfl
  · rw [← multiply_eval_eq]; rfl

/-! ### Claims about `mod_inv` and the constructor -/

/-- C2 (failing input). On the curve `(2, 3, 97)`, `mod_inv(-1)` returns `1`
without failing, although `-1` is coprime to `97` and `(-1) * 1` is not
congruent to `1` modulo `97`: the loop ends with remainder `r = -1`. -/
theorem mod_inv_neg_one_not_inverse :
    Nat.Prime (97 : Int).toNat ∧ IsCoprime (-1 : Int) 97 ∧
      mod_inv_loop 0 1 97 (-1) = (1, -1) ∧
      mod_inv ⟨2, 3, 97⟩ (-1) = Except.ok 1 ∧
      ¬ ((-1 : Int) * 1 ≡ 1 [ZMOD 97]) := by
  refine ⟨by norm_num [Int.toNat], ?_, ?_, ?_, by decide⟩
  · exact ⟨-1, 0, by norm_num⟩
  · rw [← mod_inv_loop_fuel_eq 2 _ _ _ _ (by decide)]; rfl
  · rw [← mod_inv_eval_eq]; rfl

/-- C3 (failing input). For `p = 31`, `a = 1`, `b = 1` the discriminant
`4*a^3 + 27*b^2 = 31` is congruent to `0` modulo `p`, yet construction succeeds:
the constructor reduces only `27*b*b` modulo `p`. -/
theorem construct_accepts_singular :
    Nat.Prime (31 : Int).toNat ∧ (4 * (1 : Int) ^ 3 + 27 * 1 ^ 2 ≡ 0 [ZMOD 31]) ∧
      construct 1 1 31 = Except.ok ⟨1, 1, 31⟩ := by
  refine ⟨by norm_num [Int.toNat], by decide, rfl⟩

/-- C10 (failing input). With modulus `97`, `mod_inv(-97)` returns `1` although
`gcd(97, -97) = 97 > 1`: the loop ends with remainder `r = -97`, which is not
the gcd and passes the test `r > 1`. -/
theorem mod_inv_neg_modulus_returns :
    Int.gcd 97 (-97) = 97 ∧ mod_inv_loop 0 1 97 (-97) = (1, -97) ∧
      mod_inv ⟨2, 3, 97⟩ (-97) = Except.ok 1 := by
  refine ⟨by decide, ?_, ?_⟩
  · rw [← mod_inv_loop_fuel_eq 98 _ _ _ _ (by decide)]; rfl
  · rw [← mod_inv_eval_eq]; rfl

/-! ### Claims about `add` -/

/-- C4 (failing input). On the curve `(2, 3, 97)` the points `P = (3, 6)` and
`Q = (4, 47)` are points of the curve, `add(P, Q)` returns `(25, 62)` and
`add(Q, P)` returns `(25, 38)`, which `operator==` tells apart. -/
theorem add_not_commutative :
    Nat.Prime (97 : Int).toNat ∧ construct 2 3 97 = Except.ok ⟨2, 3, 97⟩ ∧
      is_point ⟨2, 3, 97⟩ (Point.finite 3 6) ∧ is_point ⟨2, 3, 97⟩ (Point.finite 4 47) ∧
      add ⟨2, 3, 97⟩ (Point.finite 3 6) (Point.finite 4 47) = Except.ok (Point.finite 25 62) ∧
      add ⟨2, 3, 97⟩ (Point.finite 4 47) (Point.finite 3 6) = Except.ok (Point.finite 25 38) ∧
      (Point.finite 25 62).eq (Point.finite 25 38) = false := by
  refine ⟨by norm_num [Int.toNat], rfl, Or.inr (by decide), Or.inr (by decide), ?_, ?_, rfl⟩
  · rw [← add_eval_eq]; rfl
  · rw [← add_eval_eq]; rfl

/-- C7 (failing input). On the curve `(2, 3, 97)`, `add((4, 47), (3, 6))`
returns the finite point `(25, 38)`, which does not satisfy the curve equation,
although both arguments are points of the curve. -/
theorem add_leaves_curve :
    Nat.Prime (97 : Int).toNat ∧ construct 2 3 97 = Except.ok ⟨2, 3, 97⟩ ∧
      is_point ⟨2, 3, 97⟩ (Point.finite 4 47) ∧ is_point ⟨2, 3, 97⟩ (Point.finite 3 6) ∧
      add ⟨2, 3, 97⟩ (Point.finite 4 47) (Point.finite 3 6) = Except.ok (Point.finite 25 38) ∧
      (Point.finite 25 38).inf = false ∧ ¬ on_curve ⟨2, 3, 97⟩ (Point.finite 25 38) := by
  refine ⟨by norm_num [Int.toNat], rfl, Or.inr (by decide), Or.inr (by decide), ?_, rfl,
    by decide⟩
  rw [← add_eval_eq]; rfl

/-- C5 (counterexample). On the curve `(1, 1, 2)` the point `P = (0, 1)` is a
finite point of the curve with coordinates in `[0, 1]`, and
`add(P, Point(0, 2 - 1))` fails instead of returning infinity. -/
theorem add_inverse_fails_mod_two :
    Nat.Prime (2 : Int).toNat ∧ construct 1 1 2 = Except.ok ⟨1, 1, 2⟩ ∧
      in_range ⟨1, 1, 2⟩ (Point.finite 0 1) ∧ on_curve ⟨1, 1, 2⟩ (Point.finite 0 1) ∧
      add ⟨1, 1, 2⟩ (Point.finite 0 1) (Point.finite 0 (2 - 1)) =
        Except.error Error.runtime_error := by
  refine ⟨by norm_num [Int.toNat], rfl, by decide, by decide, ?_⟩
  rw [← add_eval_eq]; rfl

/-- C5 (amended). On every curve with `p` prime on which construction
succeeds, for every finite point `P = (x, y)` with `0 <= x, y < p` on the curve
and `2 * y != p` (which excludes only `p = 2`, `y = 1`),
`add(P, Point(x, p - y))` returns `infinity()`. -/
theorem add_inverse_eq_infinity (a b p : Int) (c : EllipticCurve)
    (hp : Nat.Prime p.toNat) (hc : construct a b p = Except.ok c)
    (x y : Int) (hr : in_range c (Point.finite x y)) (hon : on_curve c (Point.finite x y))
    (h2 : 2 * y ≠ p) :
    add c (Point.finite x y) (Point.finite x (c.p - y)) = Except.ok Point.infinity := by
  have hcp : c.p = p := by rw [construct_ok a b p c hc]
  have hne : y ≠ c.p - y := by
    intro h
    apply h2
    rw [hcp] at h
    omega
  simp [add, add_with, Point.finite, hne]

/-- Witness of `add_inverse_eq_infinity`: curve `(2, 3, 97)`, `P = (3, 6)`,
so that `add((3, 6), (3, 91))` is infinity. -/
theorem add_inverse_eq_infinity_witness :
    add ⟨2, 3, 97⟩ (Point.finite 3 6) (Point.finite 3 (97 - 6)) = Except.ok Point.infinity :=
  add_inverse_eq_infinity 2 3 97 ⟨2, 3, 97⟩ (by norm_num [Int.toNat]) rfl 3 6
    (by decide) (by decide) (by decide)

/-- C6 (counterexample). For the infinity-flagged point `P = Point(1, 2, true)`,
`add(P, infinity())` returns `Point(0, 0, true)`, whose `x` and `y` are not
those of `P`. -/
theorem add_infinity_right_changes_coordinates :
    add ⟨2, 3, 97⟩ ⟨1, 2, true⟩ Point.infinity = Except.ok ⟨0, 0, true⟩ ∧
      (⟨0, 0, true⟩ : Point) ≠ ⟨1, 2, true⟩ := by
  refine ⟨rfl, by decide⟩

/-- C6 (amended). For every curve and every point `P`: `add(infinity(), P)`
returns `P` unchanged; `add(P, infinity())` returns `P` unchanged when `P` is
finite and returns `infinity()` when `P` is infinity-flagged, a point equal to
`P` under `operator==`; with any routine `inv` in place of `mod_inv` both calls
return the same, so neither depends on `mod_inv` and neither can fail. -/
theorem add_infinity_identity (c : EllipticCurve) (P : Point) :
    add c Point.infinity P = Except.ok P ∧
      add c P Point.infinity = Except.ok (if P.inf then Point.infinity else P) ∧
      (if P.inf then Point.infinity else P).eq P = true ∧
      ∀ inv : Int → Except Error Int,
        add_with c inv Point.infinity P = add c Point.infinity P ∧
        add_with c inv P Point.infinity = add c P Point.infinity := by
  refine ⟨rfl, ?_, ?_, fun inv => ⟨rfl, ?_⟩⟩
  · cases h : P.inf <;> simp [add, add_with, h, Point.infinity]
  · cases h : P.inf <;> simp [Point.eq, h, Point.infinity]
  · cases h : P.inf <;> simp [add, add_with, h, Point.infinity]

/-- C8 (counterexample). On the curve `(1, 2, 5)` the point `P = (1, 2)` is a
finite point of the curve; `add(P, P)` returns `(4, 0)` while `multiply(P, 2)`
fails, because the loop doubles `(4, 0)` once more. -/
theorem multiply_two_fails_add_returns :
    Nat.Prime (5 : Int).toNat ∧ construct 1 2 5 = Except.ok ⟨1, 2, 5⟩ ∧
      in_range ⟨1, 2, 5⟩ (Point.finite 1 2) ∧ on_curve ⟨1, 2, 5⟩ (Point.finite 1 2) ∧
      add ⟨1, 2, 5⟩ (Point.finite 1 2) (Point.finite 1 2) = Except.ok (Point.finite 4 0) ∧
      multiply ⟨1, 2, 5⟩ (Point.finite 1 2) 2 = Except.error Error.runtime_error := by
  refine ⟨by norm_num [Int.toNat], rfl, by decide, by decide, ?_, ?_⟩
  · rw [← add_eval_eq]; rfl
  · rw [← multiply_eval_eq]; rfl

/-- C8 (amended). For every curve and every point `P`, `multiply(P, 2)` fails
when `add(P, P)` fails, fails when `add(P, P)` returns a point `Q` whose own
doubling `add(Q, Q)` fails, and otherwise returns exactly the point `Q` that
`add(P, P)` returns. -/
theorem multiply_two_eq (c : EllipticCurve) (P : Point) :
    multiply c P 2 =
      match add c P P with
      | Except.error e => Except.error e
      | Except.ok Q =>
        match add c Q Q with
        | Except.error e => Except.error e
        | Except.ok _ => Except.ok Q := by
  unfold multiply
  rw [multiply_loop_step _ _ _ _ (by decide)]
  have h2 : Int.tmod 2 2 ≠ 1 := by decide
  have h3 : Int.tdiv 2 2 = 1 := by decide
  simp only [if_neg h2, h3]
  cases hQ : add c P P with
  | error e => rfl
  | ok Q =>
    simp only []
    rw [multiply_loop_step _ _ _ _ (by decide)]
    have h4 : Int.tmod 1 2 = 1 := by decide
    have h5 : Int.tdiv 1 2 = 0 := by decide
    have h6 : add c Point.infinity Q = Except.ok Q := rfl
    simp only [if_pos h4, h5, h6]
    cases hQQ : add c Q Q with
    | error e => rfl
    | ok Q1 =>
      simp only []
      rw [multiply_loop_nonpos _ _ _ _ (by decide)]

/-! ### Claims about `multiply` -/

/-- Unbounded-integer model: for every curve `(a, b, p)` with `p` prime on which
construction succeeds, every finite point `P` with coordinates in `[0, p - 1]`
on the curve and every `n >= 0`, if the exact runs of `multiply(P, n)` and of
`rep(n)` return `R` and `R'`, then `R = R'`. The program meets this where its
64-bit arithmetic does not overflow; see `multiply_m_eq_rep_of_exact`. -/
theorem multiply_eq_rep_of_exact (a b p : Int) (c : EllipticCurve)
    (hp : Nat.Prime p.toNat) (hc : construct a b p = Except.ok c)
    (P : Point) (hfin : P.inf = false) (hr : in_range c P) (hon : on_curve c P)
    (n : Nat) (R R' : Point)
    (hm : multiply_exact c P n = Except.ok R) (hrep : rep_exact c P n = Except.ok R') :
    multiply c P n = Except.ok R ∧ rep c P n = Except.ok R' ∧ R = R' ∧ R.eq R' = true := by
  have hcp : c.p = p := by rw [construct_ok a b p c hc]
  have hq : c.p = (p.toNat : Int) := by
    have := hp.pos
    rw [hcp]; omega
  haveI : Fact (Nat.Prime p.toNat) := ⟨hp⟩
  have key : R = R' := by
    rcases Nat.eq_zero_or_pos n with h0 | h0
    · subst h0
      have e1 : multiply_exact c P ((0 : Nat) : Int) = Except.ok Point.infinity := by
        unfold multiply_exact
        rw [multiply_loop_nonpos _ _ _ _ (by simp)]
      have e2 : rep_exact c P 0 = Except.ok Point.infinity := rfl
      rw [e1] at hm; rw [e2] at hrep
      cases hm; cases hrep; rfl
    · obtain ⟨Q1, hQ1⟩ := multiply_loop_first_double _ _ _ _ _
        (by exact_mod_cast h0 : ((n : Nat) : Int) > 0) hm
      have hns := nonsingular_of_double c p.toNat hq (mod_inv c) P Q1 hfin hon hQ1
      have hP : represents c p.toNat P (WeierstrassCurve.Affine.Point.some hns) :=
        ⟨hfin, hr, rfl, rfl⟩
      have h1 := multiply_loop_represents c p.toNat hq (mod_inv c) (n + 1) (n : Int)
        Point.infinity P R 0 _ (by simp) rfl hP hm
      have h2 := rep_with_represents c p.toNat hq (mod_inv c) P _ hP n R' hrep
      rw [zero_add, Int.toNat_natCast] at h1
      exact represents_unique c p.toNat hq R R' _ h1 h2
  refine ⟨multiply_of_multiply_exact c P R n hm, rep_of_rep_exact c P R' n hrep, key, ?_⟩
  subst key
  cases hi : R.inf <;> simp [Point.eq, hi]

/-- Unbounded-integer model: for every curve with `p` prime on which
construction succeeds, every finite point `P` with coordinates in `[0, p - 1]`
on the curve and all `m, n >= 0`, if the exact runs of `multiply(P, m + n)`,
`multiply(P, m)`, `multiply(P, n)` and `add(B, C)` return `A`, `B`, `C`, `D`,
then `A = D`. The program meets this where its 64-bit arithmetic does not
overflow; see `multiply_m_add_of_exact`. -/
theorem multiply_add_of_exact (a b p : Int) (c : EllipticCurve)
    (hp : Nat.Prime p.toNat) (hc : construct a b p = Except.ok c)
    (P : Point) (hfin : P.inf = false) (hr : in_range c P) (hon : on_curve c P)
    (m n : Nat) (A B C D : Point)
    (hA : multiply_exact c P ((m : Int) + (n : Int)) = Except.ok A)
    (hB : multiply_exact c P m = Except.ok B) (hC : multiply_exact c P n = Except.ok C)
    (hD : add_exact c B C = Except.ok D) :
    multiply c P ((m : Int) + (n : Int)) = Except.ok A ∧ multiply c P m = Except.ok B ∧
      multiply c P n = Except.ok C ∧ add c B C = Except.ok D ∧ A = D ∧ A.eq D = true := by
  have hcp : c.p = p := by rw [construct_ok a b p c hc]
  have hq : c.p = (p.toNat : Int) := by
    have := hp.pos
    rw [hcp]; omega
  haveI : Fact (Nat.Prime p.toNat) := ⟨hp⟩
  have key : A = D := by
    rcases Nat.eq_zero_or_pos (m + n) with h0 | h0
    · have hm0 : m = 0 := by omega
      have hn0 : n = 0 := by omega
      subst hm0 hn0
      have e1 : multiply_exact c P ((0 : Nat) : Int) = Except.ok Point.infinity := by
        unfold multiply_exact
        rw [multiply_loop_nonpos _ _ _ _ (by simp)]
      have e0 : multiply_exact c P (((0 : Nat) : Int) + ((0 : Nat) : Int)) =
          Except.ok Point.infinity := by
        unfold multiply_exact
        rw [multiply_loop_nonpos _ _ _ _ (by simp)]
      rw [e0] at hA; rw [e1] at hB hC
      cases hA; cases hB; cases hC
      have e2 : add_exact c Point.infinity Point.infinity = Except.ok Point.infinity := rfl
      rw [e2] at hD
      cases hD; rfl
    · obtain ⟨Q1, hQ1⟩ := multiply_loop_first_double _ _ _ _ _
        (by exact_mod_cast h0 : (m : Int) + (n : Int) > 0) hA
      have hns := nonsingular_of_double c p.toNat hq (mod_inv c) P Q1 hfin hon hQ1
      have hP : represents c p.toNat P (WeierstrassCurve.Affine.Point.some hns) :=
        ⟨hfin, hr, rfl, rfl⟩
      have h1 := multiply_loop_represents c p.toNat hq (mod_inv c) (m + n + 1)
        ((m : Int) + (n : Int)) Point.infinity P A 0 _ (by omega) rfl hP hA
      have h2 := multiply_loop_represents c p.toNat hq (mod_inv c) (m + 1) (m : Int)
        Point.infinity P B 0 _ (by simp) rfl hP hB
      have h3 := multiply_loop_represents c p.toNat hq (mod_inv c) (n + 1) (n : Int)
        Point.infinity P C 0 _ (by simp) rfl hP hC
      have h4 := add_with_checked_represents c p.toNat hq (mod_inv c) B C D _ _ h2 h3 hD
      have e : ((m : Int) + (n : Int)).toNat = m + n := by omega
      rw [zero_add, e, add_nsmul] at h1
      rw [zero_add, Int.toNat_natCast] at h4
      rw [zero_add, Int.toNat_natCast] at h4
      exact represents_unique c p.toNat hq A D _ h1 h4
  refine ⟨multiply_of_multiply_exact c P A _ hA, multiply_of_multiply_exact c P B _ hB,
    multiply_of_multiply_exact c P C _ hC, add_of_add_exact c B C D hD, key, ?_⟩
  subst key
  cases hi : A.inf <;> simp [Point.eq, hi]

/-! ### Claims C11 to C20 -/

theorem mod_inv_zero (c : EllipticCurve) (hp : 1 < c.p) :
    mod_inv c 0 = Except.error Error.runtime_error := by
  unfold mod_inv
  rw [mod_inv_loop_zero]
  simp [hp]

/-- C11. For every curve with `p > 1` and every finite point `P` with
`P.y = 0`, `mod_inv(0)` fails with the no-inverse error and so does
`add(P, P)`, which returns no point. -/
theorem add_self_y_zero_fails (c : EllipticCurve) (hp : 1 < c.p) (P : Point)
    (hfin : P.inf = false) (hy : P.y = 0) :
    mod_inv c (2 * P.y) = Except.error Error.runtime_error ∧
      add c P P = Except.error Error.runtime_error := by
  have h0 : mod_inv c (2 * P.y) = Except.error Error.runtime_error := by
    rw [hy, mul_zero]; exact mod_inv_zero c hp
  refine ⟨h0, ?_⟩
  unfold add add_with
  have he : P.eq P = true := by simp [Point.eq]
  simp only [hfin, Bool.false_eq_true, if_false, he, if_true, h0]
  simp

/-- Witness of `add_self_y_zero_fails`: curve `(2, 3, 97)`, `P = (96, 0)`. -/
theorem add_self_y_zero_fails_witness :
    mod_inv ⟨2, 3, 97⟩ (2 * (Point.finite 96 0).y) = Except.error Error.runtime_error ∧
      add ⟨2, 3, 97⟩ (Point.finite 96 0) (Point.finite 96 0) =
        Except.error Error.runtime_error :=
  add_self_y_zero_fails ⟨2, 3, 97⟩ (by decide) (Point.finite 96 0) rfl rfl

/-- Unbounded-integer model: for every curve with `p >= 1` and all finite
points `P`, `Q`, a point returned by the slope branch of `add` is finite with
both coordinates in `[0, p - 1]`. On 64-bit integers this needs `p <= 2^62`;
see `add_m_slope_in_range`. -/
theorem add_slope_in_range (c : EllipticCurve) (hp : 1 ≤ c.p) (P Q R : Point)
    (hP : P.inf = false) (hQ : Q.inf = false) (hb : ¬ (P.x = Q.x ∧ P.y ≠ Q.y))
    (h : add c P Q = Except.ok R) : R.inf = false ∧ in_range c R := by
  obtain ⟨v, -, hR⟩ := add_with_slope c (mod_inv c) P Q R hP hQ hb h
  rw [hR]
  have hp0 : 0 < c.p := by omega
  exact ⟨rfl, (tmod_add_tmod_range _ c.p hp0).1, (tmod_add_tmod_range _ c.p hp0).2,
    (tmod_add_tmod_range _ c.p hp0).1, (tmod_add_tmod_range _ c.p hp0).2⟩

/-- C14. For all points `P`, `Q`: `P == Q` holds exactly when both have the
infinity flag set (whatever `x` and `y` they store) or both are finite with
identical `x` and identical `y`; and `P != Q` is the negation of `P == Q`. -/
theorem point_eq_iff (P Q : Point) :
    (P.eq Q = true ↔
      (P.inf = true ∧ Q.inf = true) ∨
        (P.inf = false ∧ Q.inf = false ∧ P.x = Q.x ∧ P.y = Q.y)) ∧
      P.ne Q = !(P.eq Q) ∧ (P.ne Q = true ↔ ¬ P.eq Q = true) := by
  refine ⟨?_, rfl, by simp [Point.ne]⟩
  cases hP : P.inf <;> cases hQ : Q.inf <;> simp [Point.eq, hP, hQ]

/-- C15. For every curve, every point `P` and every integer `n <= 0`,
`multiply(P, n)` returns `infinity()`; the loop body is not entered, so the
result is the same with any routine in place of `add` and it cannot fail. -/
theorem multiply_nonpos (c : EllipticCurve) (P : Point) (n : Int) (hn : n ≤ 0) :
    multiply c P n = Except.ok Point.infinity ∧
      ∀ addf : Point → Point → Except Error Point,
        multiply_loop addf Point.infinity P n = Except.ok Point.infinity :=
  ⟨multiply_loop_nonpos _ _ _ _ (by omega), fun addf => multiply_loop_nonpos addf _ _ _ (by omega)⟩

/-- Witness of `multiply_nonpos`: curve `(2, 3, 97)`, `P = (3, 6)`, `n = -3`. -/
theorem multiply_nonpos_witness :
    multiply ⟨2, 3, 97⟩ (Point.finite 3 6) (-3) = Except.ok Point.infinity ∧
      ∀ addf : Point → Point → Except Error Point,
        multiply_loop addf Point.infinity (Point.finite 3 6) (-3) = Except.ok Point.infinity :=
  multiply_nonpos ⟨2, 3, 97⟩ (Point.finite 3 6) (-3) (by decide)

theorem multiply_one_eq (c : EllipticCurve) (P : Point) :
    multiply c P 1 =
      match add c P P with
      | Except.error e => Except.error e
      | Except.ok _ => Except.ok P := by
  unfold multiply
  rw [multiply_loop_step _ _ _ _ (by decide)]
  have h4 : Int.tmod 1 2 = 1 := by decide
  have h5 : Int.tdiv 1 2 = 0 := by decide
  have h6 : add c Point.infinity P = Except.ok P := rfl
  simp only [if_pos h4, h5, h6]
  cases hQ : add c P P with
  | error e => rfl
  | ok Q1 =>
    simp only []
    rw [multiply_loop_nonpos _ _ _ _ (by decide)]

theorem gcd_two_mul_eq_one (p y : Int) (hp : Nat.Prime p.toNat) (hp2 : p ≠ 2)
    (hy0 : 0 < y) (hy : y < p) : Int.gcd p (2 * y) = 1 := by
  have hpos := hp.pos
  have hpp : Prime p := by
    rw [Int.prime_iff_natAbs_prime]
    have : p.natAbs = p.toNat := by omega
    rw [this]; exact hp
  have hcop : IsCoprime p (2 * y) := by
    rw [Prime.coprime_iff_not_dvd hpp]
    intro hd
    rcases hpp.dvd_mul.mp hd with h2 | h2
    · have := Int.le_of_dvd (by norm_num) h2
      have h1 := hp.two_le
      omega
    · have := Int.le_of_dvd hy0 h2
      omega
  exact Int.isCoprime_iff_gcd_eq_one.mp hcop

/-- The doubling `add(P, P)` returns a point whenever `p` is an odd prime and
`0 < P.y < p`. -/
theorem add_self_returns (c : EllipticCurve) (hp : Nat.Prime c.p.toNat) (hp2 : c.p ≠ 2)
    (P : Point) (hfin : P.inf = false) (hy0 : 0 < P.y) (hy : P.y < c.p) :
    ∃ R, add c P P = Except.ok R := by
  have hpos : 0 < c.p := by have := hp.pos; omega
  obtain ⟨v, hv, -⟩ := (mod_inv_of_nonneg c (2 * P.y) hpos (by omega)).1
    (gcd_two_mul_eq_one c.p P.y hp hp2 hy0 hy)
  have he : P.eq P = true := by simp [Point.eq]
  unfold add add_with
  simp only [hfin, Bool.false_eq_true, if_false, he, if_true, hv]
  simp

/-- C16 (counterexample). On the curve `(2, 3, 97)` the point `P = (96, 0)`
is a finite point of the curve with coordinates in `[0, 96]`, and
`multiply(P, 1)` fails instead of returning `P`. -/
theorem multiply_one_fails :
    Nat.Prime (97 : Int).toNat ∧ construct 2 3 97 = Except.ok ⟨2, 3, 97⟩ ∧
      in_range ⟨2, 3, 97⟩ (Point.finite 96 0) ∧ on_curve ⟨2, 3, 97⟩ (Point.finite 96 0) ∧
      multiply ⟨2, 3, 97⟩ (Point.finite 96 0) 1 = Except.error Error.runtime_error := by
  refine ⟨by norm_num [Int.toNat], rfl, by decide, by decide, ?_⟩
  rw [← multiply_eval_eq]; rfl

/-- C16 (amended). For every curve with `p` prime on which construction
succeeds and every finite point `P` of that curve with coordinates in
`[0, p - 1]`: `multiply(P, 1)` returns exactly `P` when `P.y != 0` and `p != 2`,
and fails with the no-inverse error when `P.y = 0` or `p = 2`, because the loop
doubles `P` after the last bit. -/
theorem multiply_one (a b p : Int) (c : EllipticCurve)
    (hp : Nat.Prime p.toNat) (hc : construct a b p = Except.ok c)
    (P : Point) (hfin : P.inf = false) (hr : in_range c P) (hon : on_curve c P) :
    (P.y ≠ 0 ∧ p ≠ 2 → multiply c P 1 = Except.ok P) ∧
      (P.y = 0 ∨ p = 2 → multiply c P 1 = Except.error Error.runtime_error) := by
  have hcp : c.p = p := by rw [construct_ok a b p c hc]
  have hpc : Nat.Prime c.p.toNat := by rw [hcp]; exact hp
  have hpos : 1 < c.p := by have := hpc.two_le; omega
  unfold in_range at hr
  constructor
  · rintro ⟨hy, hp2⟩
    obtain ⟨R, hR⟩ := add_self_returns c hpc (by rw [hcp]; exact hp2) P hfin (by omega) hr.2.2.2
    rw [multiply_one_eq, hR]
  · intro h
    have hfail : add c P P = Except.error Error.runtime_error := by
      by_cases hy : P.y = 0
      · exact (add_self_y_zero_fails c hpos P hfin hy).2
      · have hp2 : c.p = 2 := by
          rcases h with h | h
          · exact absurd h hy
          · rw [hcp]; exact h
        have hy1 : P.y = 1 := by omega
        have hinv : mod_inv c (2 * P.y) = Except.error Error.runtime_error := by
          apply (mod_inv_of_nonneg c (2 * P.y) (by omega) (by omega)).2
          rw [hp2, hy1]; decide
        have he : P.eq P = true := by simp [Point.eq]
        unfold add add_with
        simp only [hfin, Bool.false_eq_true, if_false, he, if_true, hinv]
        simp
    rw [multiply_one_eq, hfail]

/-- Witness of `multiply_one`: curve `(2, 3, 97)`, `P = (3, 6)`. -/
theorem multiply_one_witness :
    ((Point.finite 3 6).y ≠ 0 ∧ (97 : Int) ≠ 2 →
        multiply ⟨2, 3, 97⟩ (Point.finite 3 6) 1 = Except.ok (Point.finite 3 6)) ∧
      ((Point.finite 3 6).y = 0 ∨ (97 : Int) = 2 →
        multiply ⟨2, 3, 97⟩ (Point.finite 3 6) 1 = Except.error Error.runtime_error) :=
  multiply_one 2 3 97 ⟨2, 3, 97⟩ (by norm_num [Int.toNat]) rfl (Point.finite 3 6) rfl
    (by decide) (by decide)

/-- Unbounded-integer model: for every prime `p > 3` and all integers `a >= 0`
and `b`, `construct` fails exactly when `a = 0` and `p` divides `b`. On 64-bit
integers this needs `4*a^3 + 27*b^2 < 2^63`; see `construct_m_fails_iff`. -/
theorem construct_fails_iff (a b p : Int) (hp : Nat.Prime p.toNat) (h3 : 3 < p) (ha : 0 ≤ a) :
    (construct a b p = Except.error Error.invalid_argument ↔ a = 0 ∧ p ∣ b) ∧
      (¬ (a = 0 ∧ p ∣ b) → construct a b p = Except.ok ⟨a, b, p⟩) := by
  have hpp : Prime p := by
    rw [Int.prime_iff_natAbs_prime]
    have : p.natAbs = p.toNat := by omega
    rw [this]; exact hp
  have hbb : 0 ≤ 27 * b * b := by nlinarith [mul_self_nonneg b]
  have hm : 0 ≤ Int.tmod (27 * b * b) p := Int.tmod_nonneg _ hbb
  have ha3 : 0 ≤ 4 * a * a * a := by positivity
  have key : 4 * a * a * a + Int.tmod (27 * b * b) p = 0 ↔ a = 0 ∧ p ∣ b := by
    constructor
    · intro h
      have h1 : 4 * a * a * a = 0 := by omega
      have h2 : Int.tmod (27 * b * b) p = 0 := by omega
      have ha0 : a = 0 := by
        rcases mul_eq_zero.mp h1 with h | h
        · rcases mul_eq_zero.mp h with h | h
          · rcases mul_eq_zero.mp h with h | h
            · omega
            · exact h
          · exact h
        · exact h
      refine ⟨ha0, ?_⟩
      rw [Int.tmod_eq_emod hbb (by omega)] at h2
      have hd : p ∣ 27 * b * b := Int.dvd_of_emod_eq_zero h2
      rcases hpp.dvd_mul.mp hd with h | h
      · rcases hpp.dvd_mul.mp h with h | h
        · have := Int.le_of_dvd (by norm_num) h
          have h27 : (27 : Int) = 3 ^ 3 := by norm_num
          rw [h27] at h
          have := Int.le_of_dvd (by norm_num) (hpp.dvd_of_dvd_pow h)
          omega
        · exact h
      · exact h
    · rintro ⟨ha0, hd⟩
      subst ha0
      have hd2 : p ∣ 27 * b * b := Dvd.dvd.mul_left hd _
      rw [Int.tmod_eq_emod hbb (by omega), Int.emod_eq_zero_of_dvd hd2]
      simp
  constructor
  · unfold construct
    constructor
    · intro h
      by_contra hn
      rw [if_neg (fun hh => hn (key.mp hh))] at h
      cases h
    · intro h
      rw [if_pos (key.mpr h)]
  · intro h
    unfold construct
    rw [if_neg (fun hh => h (key.mp hh))]

theorem tmod_modEq (z p : Int) : Int.tmod z p ≡ z [ZMOD p] := by
  have h := Int.tmod_add_tdiv z p
  apply Int.ModEq.symm
  rw [Int.modEq_iff_dvd]
  exact ⟨-(Int.tdiv z p), by linarith⟩

theorem tmod_add_tmod_eq_emod (z p : Int) (hp : 0 < p) :
    Int.tmod (Int.tmod z p + p) p = z % p := by
  have h1 : -p < Int.tmod z p := by
    have h := natAbs_tmod z p
    have h2 := Nat.mod_lt z.natAbs (Int.natAbs_pos.mpr hp.ne')
    omega
  rw [Int.tmod_eq_emod (by omega) hp.le, Int.add_emod_self]
  exact tmod_modEq z p

/-- Forward form of the slope branch of `add`: the point returned when the
inverse routine returns `v`. -/
theorem add_with_slope_ok (c : EllipticCurve) (inv : Int → Except Error Int) (P Q : Point)
    (hP : P.inf = false) (hQ : Q.inf = false) (hb : ¬ (P.x = Q.x ∧ P.y ≠ Q.y)) (v : Int)
    (hv : inv (if P.eq Q then 2 * P.y else Q.x - P.x) = Except.ok v) :
    add_with c inv P Q = Except.ok (Point.finite
        (Int.tmod (Int.tmod
          (Int.tmod ((if P.eq Q then 3 * P.x * P.x + c.a else Q.y - P.y) * v) c.p *
            Int.tmod ((if P.eq Q then 3 * P.x * P.x + c.a else Q.y - P.y) * v) c.p -
            P.x - Q.x) c.p + c.p) c.p)
        (Int.tmod (Int.tmod
          (Int.tmod ((if P.eq Q then 3 * P.x * P.x + c.a else Q.y - P.y) * v) c.p *
            (P.x - Int.tmod
              (Int.tmod ((if P.eq Q then 3 * P.x * P.x + c.a else Q.y - P.y) * v) c.p *
                Int.tmod ((if P.eq Q then 3 * P.x * P.x + c.a else Q.y - P.y) * v) c.p -
                P.x - Q.x) c.p) - P.y) c.p + c.p) c.p)) := by
  unfold add_with
  simp only [hP, hQ, if_neg hb, Bool.false_eq_true, if_false]
  cases he : P.eq Q with
  | true =>
    simp only [he, if_true] at hv ⊢
    rw [hv]
  | false =>
    simp only [he, Bool.false_eq_true, if_false] at hv ⊢
    rw [hv]

/-- The slope branch of `add` computes the chord-and-tangent formula in `F_p`
whenever the value `v` returned by the inverse routine is an inverse of the
denominator: for every `m` with `m * den = num (mod p)` the point returned is
`((m^2 - P.x - Q.x) mod p, (m * (P.x - x3) - P.y) mod p)`. -/
theorem add_with_formula (c : EllipticCurve) (hp : 0 < c.p)
    (inv : Int → Except Error Int) (P Q : Point)
    (hP : P.inf = false) (hQ : Q.inf = false) (hb : ¬ (P.x = Q.x ∧ P.y ≠ Q.y)) (v : Int)
    (hv : inv (if P.eq Q then 2 * P.y else Q.x - P.x) = Except.ok v)
    (hcong : (if P.eq Q then 2 * P.y else Q.x - P.x) * v ≡ 1 [ZMOD c.p]) (m : Int)
    (hm : m * (if P.eq Q then 2 * P.y else Q.x - P.x) ≡
      (if P.eq Q then 3 * P.x * P.x + c.a else Q.y - P.y) [ZMOD c.p]) :
    add_with c inv P Q = Except.ok (Point.finite ((m ^ 2 - P.x - Q.x) % c.p)
      ((m * (P.x - (m ^ 2 - P.x - Q.x) % c.p) - P.y) % c.p)) := by
  rw [add_with_slope_ok c inv P Q hP hQ hb v hv]
  generalize (if P.eq Q then 2 * P.y else Q.x - P.x) = den at hcong hm
  generalize (if P.eq Q then 3 * P.x * P.x + c.a else Q.y - P.y) = num at hm
  have hmc : Int.tmod (num * v) c.p ≡ m [ZMOD c.p] := by
    refine (tmod_modEq _ _).trans ?_
    have h1 : num * v ≡ m * den * v [ZMOD c.p] := (hm.mul_right v).symm
    have h2 : m * (den * v) ≡ m * 1 [ZMOD c.p] := hcong.mul_left m
    rw [mul_assoc] at h1
    rw [mul_one] at h2
    exact h1.trans h2
  have hx : Int.tmod (num * v) c.p * Int.tmod (num * v) c.p - P.x - Q.x ≡
      m ^ 2 - P.x - Q.x [ZMOD c.p] := by
    have := ((hmc.mul hmc).sub (Int.ModEq.refl P.x)).sub (Int.ModEq.refl Q.x)
    rw [pow_two]; exact this
  have hx3 : Int.tmod (Int.tmod (num * v) c.p * Int.tmod (num * v) c.p - P.x - Q.x) c.p ≡
      (m ^ 2 - P.x - Q.x) % c.p [ZMOD c.p] :=
    ((tmod_modEq _ _).trans hx).trans (Int.mod_modEq _ _).symm
  have hy : Int.tmod (num * v) c.p *
      (P.x - Int.tmod (Int.tmod (num * v) c.p * Int.tmod (num * v) c.p - P.x - Q.x) c.p) - P.y ≡
      m * (P.x - (m ^ 2 - P.x - Q.x) % c.p) - P.y [ZMOD c.p] :=
    (hmc.mul ((Int.ModEq.refl P.x).sub hx3)).sub (Int.ModEq.refl P.y)
  rw [tmod_add_tmod_eq_emod _ _ hp, tmod_add_tmod_eq_emod _ _ hp]
  have e1 : (Int.tmod (num * v) c.p * Int.tmod (num * v) c.p - P.x - Q.x) % c.p =
      (m ^ 2 - P.x - Q.x) % c.p := hx
  have e2 : (Int.tmod (num * v) c.p *
      (P.x - Int.tmod (Int.tmod (num * v) c.p * Int.tmod (num * v) c.p - P.x - Q.x) c.p) -
      P.y) % c.p = (m * (P.x - (m ^ 2 - P.x - Q.x) % c.p) - P.y) % c.p := hy
  rw [e1, e2]

/-- Unbounded-integer model: for every curve with `p` an odd prime and every
finite point `P` with coordinates in `[0, p - 1]` and `P.y != 0`, `add(P, P)`
returns the point of the tangent formula for the unique residue `m` with
`m * (2 * P.y) = 3 * P.x^2 + a (mod p)`. On 64-bit integers this needs bounds
on `p` and `a`; see `add_m_self_tangent`. -/
theorem add_self_tangent (c : EllipticCurve) (hp : Nat.Prime c.p.toNat) (hp2 : c.p ≠ 2)
    (P : Point) (hfin : P.inf = false) (hr : in_range c P) (hy : P.y ≠ 0) :
    ∃ m : Int, 0 ≤ m ∧ m < c.p ∧ m * (2 * P.y) ≡ 3 * P.x ^ 2 + c.a [ZMOD c.p] ∧
      (∀ m' : Int, 0 ≤ m' → m' < c.p →
        m' * (2 * P.y) ≡ 3 * P.x ^ 2 + c.a [ZMOD c.p] → m' = m) ∧
      add c P P = Except.ok (Point.finite ((m ^ 2 - 2 * P.x) % c.p)
        ((m * (P.x - (m ^ 2 - 2 * P.x) % c.p) - P.y) % c.p)) ∧
      in_range c (Point.finite ((m ^ 2 - 2 * P.x) % c.p)
        ((m * (P.x - (m ^ 2 - 2 * P.x) % c.p) - P.y) % c.p)) := by
  have hpos : 0 < c.p := by have := hp.pos; omega
  unfold in_range at hr
  obtain ⟨v, hv, hcong⟩ := (mod_inv_of_nonneg c (2 * P.y) hpos (by omega)).1
    (gcd_two_mul_eq_one c.p P.y hp hp2 (by omega) hr.2.2.2)
  have he : P.eq P = true := by simp [Point.eq]
  have hm : ((3 * P.x ^ 2 + c.a) * v) % c.p * (2 * P.y) ≡ 3 * P.x ^ 2 + c.a [ZMOD c.p] := by
    have h1 : ((3 * P.x ^ 2 + c.a) * v) % c.p * (2 * P.y) ≡
        (3 * P.x ^ 2 + c.a) * v * (2 * P.y) [ZMOD c.p] :=
      (Int.mod_modEq _ _).mul_right _
    have h2 : (3 * P.x ^ 2 + c.a) * (2 * P.y * v) ≡ (3 * P.x ^ 2 + c.a) * 1 [ZMOD c.p] :=
      hcong.mul_left _
    have e : (3 * P.x ^ 2 + c.a) * v * (2 * P.y) = (3 * P.x ^ 2 + c.a) * (2 * P.y * v) := by
      ring
    rw [e] at h1
    rw [mul_one] at h2
    exact h1.trans h2
  refine ⟨((3 * P.x ^ 2 + c.a) * v) % c.p, Int.emod_nonneg _ hpos.ne',
    Int.emod_lt_of_pos _ hpos, hm, ?_, ?_, ?_⟩
  · intro m' h0 h1 hm'
    have h3 : m' ≡ ((3 * P.x ^ 2 + c.a) * v) % c.p [ZMOD c.p] := by
      have a1 : m' * (2 * P.y * v) ≡ m' * 1 [ZMOD c.p] := hcong.mul_left _
      have a2 : m' * (2 * P.y) * v ≡ (3 * P.x ^ 2 + c.a) * v [ZMOD c.p] := hm'.mul_right _
      rw [mul_one] at a1
      rw [mul_assoc] at a2
      exact (a1.symm.trans a2).trans (Int.mod_modEq _ _).symm
    have h4 := h3.eq
    rwa [Int.emod_eq_of_lt h0 h1, Int.emod_emod_of_dvd _ (dvd_refl _)] at h4
  · have hform := add_with_formula c hpos (mod_inv c) P P hfin hfin (by simp) v
      (by simpa [he] using hv) (by simpa [he] using hcong)
      (((3 * P.x ^ 2 + c.a) * v) % c.p)
      (by
        simp only [he, if_true]
        have e : 3 * P.x * P.x + c.a = 3 * P.x ^ 2 + c.a := by ring
        rw [e]; exact hm)
    have e2 : ∀ m : Int, m ^ 2 - P.x - P.x = m ^ 2 - 2 * P.x := fun m => by ring
    simp only [e2] at hform
    exact hform
  · exact ⟨Int.emod_nonneg _ hpos.ne', Int.emod_lt_of_pos _ hpos,
      Int.emod_nonneg _ hpos.ne', Int.emod_lt_of_pos _ hpos⟩

/-- The chord branch of `add` is right whenever `P.x < Q.x`: for a prime `p`
and finite points with coordinates in `[0, p - 1]`, every `m` with
`m * (Q.x - P.x) = Q.y - P.y (mod p)` gives the point returned. -/
theorem add_chord_of_lt (c : EllipticCurve) (hp : Nat.Prime c.p.toNat) (P Q : Point)
    (hP : P.inf = false) (hQ : Q.inf = false) (hPr : in_range c P) (hQr : in_range c Q)
    (hlt : P.x < Q.x) (m : Int) (hm : m * (Q.x - P.x) ≡ Q.y - P.y [ZMOD c.p]) :
    add c P Q = Except.ok (Point.finite ((m ^ 2 - P.x - Q.x) % c.p)
      ((m * (P.x - (m ^ 2 - P.x - Q.x) % c.p) - P.y) % c.p)) := by
  have hpos : 0 < c.p := by have := hp.pos; omega
  unfold in_range at hPr hQr
  have hg : Int.gcd c.p (Q.x - P.x) = 1 := by
    have hpp : Prime c.p := by
      rw [Int.prime_iff_natAbs_prime]
      have : c.p.natAbs = c.p.toNat := by omega
      rw [this]; exact hp
    have hcop : IsCoprime c.p (Q.x - P.x) := by
      rw [Prime.coprime_iff_not_dvd hpp]
      intro hd
      have := Int.le_of_dvd (by omega) hd
      omega
    exact Int.isCoprime_iff_gcd_eq_one.mp hcop
  obtain ⟨v, hv, hcong⟩ := (mod_inv_of_nonneg c (Q.x - P.x) hpos (by omega)).1 hg
  have he : P.eq Q = false := by
    have : P.x ≠ Q.x := by omega
    simp [Point.eq, hP, hQ, this]
  exact add_with_formula c hpos (mod_inv c) P Q hP hQ (fun h => by omega) v
    (by simpa [he] using hv) (by simpa [he] using hcong) m (by simpa [he] using hm)

/-- C18 (failing input). On the curve `(2, 3, 97)` with `P = (4, 47)` and
`Q = (3, 6)`, finite points with coordinates in `[0, 96]` and `P.x != Q.x`, the
residue `m = 41` satisfies `m * (Q.x - P.x) = Q.y - P.y (mod 97)` and the chord
formula gives `(25, 62)`, but `add(P, Q)` returns `(25, 38)`. -/
theorem add_chord_wrong :
    Nat.Prime (97 : Int).toNat ∧
      in_range ⟨2, 3, 97⟩ (Point.finite 4 47) ∧ in_range ⟨2, 3, 97⟩ (Point.finite 3 6) ∧
      ((41 : Int) * (3 - 4) ≡ 6 - 47 [ZMOD 97]) ∧
      ((41 : Int) ^ 2 - 4 - 3) % 97 = 25 ∧ ((41 : Int) * (4 - 25) - 47) % 97 = 62 ∧
      add ⟨2, 3, 97⟩ (Point.finite 4 47) (Point.finite 3 6) = Except.ok (Point.finite 25 38) ∧
      Point.finite 25 38 ≠ Point.finite 25 62 := by
  refine ⟨by norm_num [Int.toNat], by decide, by decide, by decide, by decide, by decide, ?_,
    by decide⟩
  rw [← add_eval_eq]; rfl

theorem tmod_sign (r newr : Int) :
    (0 ≤ r → 0 ≤ Int.tmod r newr ∧ Int.tmod r newr ≤ r) ∧
      (r ≤ 0 → Int.tmod r newr ≤ 0 ∧ r ≤ Int.tmod r newr) := by
  have h := natAbs_tmod r newr
  have hle : r.natAbs % newr.natAbs ≤ r.natAbs := Nat.mod_le _ _
  constructor
  · intro hr
    have h0 : 0 ≤ Int.tmod r newr := Int.tmod_nonneg _ hr
    exact ⟨h0, by omega⟩
  · intro hr
    have h0 : 0 ≤ Int.tmod (-r) newr := Int.tmod_nonneg _ (by omega)
    have hneg : Int.tmod (-r) newr = -Int.tmod r newr := by
      rw [Int.tmod_def, Int.tmod_def, Int.neg_tdiv]; ring
    rw [hneg] at h0
    exact ⟨by omega, by omega⟩

theorem bezout_inv_init (p n : Int) (hp : 0 < p) : bezout_inv p 0 1 p n := by
  refine ⟨hp.ne', Or.inl ⟨by simp, by simpa using hp.le, by simp⟩, Or.inr (by simp),
    Or.inr (by simp)⟩

theorem bezout_inv_newt_le (p t newt r newr : Int) (h : bezout_inv p t newt r newr) :
    newt.natAbs * r.natAbs ≤ p.natAbs := by
  obtain ⟨-, hb, -, -⟩ := h
  rw [← Int.natAbs_mul]
  generalize newt * r = s2 at hb
  generalize t * newr = s1 at hb
  omega

theorem bezout_inv_step (p t newt r newr : Int) (h : bezout_inv p t newt r newr)
    (h0 : newr ≠ 0) :
    bezout_inv p newt (t - Int.tdiv r newr * newt) newr (r - Int.tdiv r newr * newr) := by
  have hle := bezout_inv_newt_le p t newt r newr h
  obtain ⟨hr, hb, hc, hd⟩ := h
  have hm : r - Int.tdiv r newr * newr = Int.tmod r newr := sub_tdiv_mul_eq_tmod r newr
  obtain ⟨sp, sn⟩ := tmod_sign r newr
  have hq : Int.tdiv r newr * newr = r - Int.tmod r newr := by linarith
  have e2 : (t - Int.tdiv r newr * newt) * newr =
      t * newr - newt * r + newt * Int.tmod r newr := by
    have : (t - Int.tdiv r newr * newt) * newr = t * newr - newt * (Int.tdiv r newr * newr) := by
      ring
    rw [this, hq]; ring
  rw [hm]
  refine ⟨h0, ?_, ?_, ?_⟩
  · rw [e2]
    have key : ∀ u : Int, 0 ≤ u * r → (0 ≤ u * Int.tmod r newr ∧ u * Int.tmod r newr ≤ u * r) := by
      intro u hu
      rcases lt_or_gt_of_ne hr with hneg | hpos
      · obtain ⟨m0, m1⟩ := sn hneg.le
        have hu0 : u ≤ 0 := by
          by_contra hc
          push_neg at hc
          have := mul_neg_of_pos_of_neg hc hneg
          omega
        constructor
        · exact mul_nonneg_of_nonpos_of_nonpos hu0 m0
        · nlinarith
      · obtain ⟨m0, m1⟩ := sp hpos.le
        have hu0 : 0 ≤ u := by
          by_contra hc
          push_neg at hc
          have := mul_neg_of_neg_of_pos hc hpos
          omega
        constructor
        · exact mul_nonneg hu0 m0
        · nlinarith
    rcases hb with ⟨b1, b2, b3⟩ | ⟨b1, b2, b3⟩
    · obtain ⟨k1, k2⟩ := key newt b2
      right
      refine ⟨k1, by linarith, by linarith⟩
    · have b2' : 0 ≤ (-newt) * r := by linarith
      obtain ⟨k1, k2⟩ := key (-newt) b2'
      left
      refine ⟨by linarith, by linarith, by linarith⟩
  · left
    rw [natAbs_tmod]
    exact Nat.mod_lt _ (Int.natAbs_pos.mpr h0)
  · rcases hc with hc | hc
    · left
      calc newt.natAbs * (newr.natAbs + 1) ≤ newt.natAbs * r.natAbs :=
            Nat.mul_le_mul_left _ hc
        _ ≤ p.natAbs := hle
    · right; exact hc

/-- At the end of the loop of `mod_inv` the coefficient returned satisfies
`|t| < p` for every modulus `p > 1`. -/
theorem mod_inv_loop_bound (p : Int) (hp : 1 < p) (k : Nat) :
    ∀ (t newt r newr : Int), newr.natAbs < k → bezout_inv p t newt r newr →
      -p < (mod_inv_loop t newt r newr).1 ∧ (mod_inv_loop t newt r newr).1 < p := by
  induction k with
  | zero => intro t newt r newr h; omega
  | succ k ih =>
    intro t newt r newr h hinv
    by_cases h0 : newr = 0
    · subst h0
      rw [mod_inv_loop_zero]
      obtain ⟨hr, -, -, hd⟩ := hinv
      have hr1 : 1 ≤ r.natAbs := Int.natAbs_pos.mpr hr
      rcases hd with hd | hd
      · have : t.natAbs * 2 ≤ t.natAbs * (r.natAbs + 1) := Nat.mul_le_mul_left _ (by omega)
        simp only []
        omega
      · simp only []
        omega
    · rw [mod_inv_loop_step _ _ _ _ h0]
      apply ih _ _ _ _ _ (bezout_inv_step p t newt r newr hinv h0)
      rw [sub_tdiv_mul_eq_tmod, natAbs_tmod]
      have := Nat.mod_lt r.natAbs (Int.natAbs_pos.mpr h0)
      omega

/-- C12. For every prime `p` and every integer `n` for which `mod_inv(n)`
returns a value `v`, the coefficient `t` left by the loop satisfies
`-p < t < p`, so one addition of `p` normalises it, and `v` lies in
`[0, p - 1]`. -/
theorem mod_inv_in_range (c : EllipticCurve) (hp : Nat.Prime c.p.toNat) (n v : Int)
    (h : mod_inv c n = Except.ok v) :
    (-c.p < (mod_inv_loop 0 1 c.p n).1 ∧ (mod_inv_loop 0 1 c.p n).1 < c.p) ∧
      0 ≤ v ∧ v < c.p := by
  have hp1 : 1 < c.p := by have := hp.two_le; omega
  have hb := mod_inv_loop_bound c.p hp1 (n.natAbs + 1) 0 1 c.p n (Nat.lt_succ_self _)
    (bezout_inv_init c.p n (by omega))
  refine ⟨hb, ?_⟩
  unfold mod_inv at h
  simp only [] at h
  split at h
  · cases h
  · split at h
    · cases h; omega
    · cases h; omega

/-- Witness of `mod_inv_in_range`: curve `(2, 3, 97)`, `mod_inv(12) = 89`. -/
theorem mod_inv_in_range_witness :
    (-(97 : Int) < (mod_inv_loop 0 1 97 12).1 ∧ (mod_inv_loop 0 1 97 12).1 < 97) ∧
      (0 : Int) ≤ 89 ∧ (89 : Int) < 97 :=
  mod_inv_in_range ⟨2, 3, 97⟩ (by norm_num [Int.toNat]) 12 89 (by rw [← mod_inv_eval_eq]; rfl)

theorem wrapped_of_in64 (x : Int) (h : in64 x) : wrapped x = some x := by
  unfold in64 at h
  unfold wrapped wrap64
  congr 1
  omega

theorem trap64_of_in64 (x : Int) (h : in64 x) : trap64 x = some x := by
  unfold trap64
  rw [if_pos h]

theorem in64_of_abs_le (x : Int) (B : Int) (h : |x| ≤ B) (hB : B < 2 ^ 63) : in64 x := by
  unfold in64
  have := abs_le.mp h
  constructor <;> omega

theorem abs_mul_le_mul (x y A B : Int) (hx : |x| ≤ A) (hy : |y| ≤ B) : |x * y| ≤ A * B := by
  rw [abs_mul]
  exact mul_le_mul hx hy (abs_nonneg _) (le_trans (abs_nonneg _) hx)

theorem abs_tmod_le (x p : Int) : |Int.tmod x p| ≤ |x| := by
  have h := natAbs_tmod x p
  have hle : x.natAbs % p.natAbs ≤ x.natAbs := Nat.mod_le _ _
  rw [Int.abs_eq_natAbs, Int.abs_eq_natAbs]
  omega

theorem abs_tmod_lt (x p : Int) (hp : 0 < p) : |Int.tmod x p| < p := by
  have h := natAbs_tmod x p
  have hlt := Nat.mod_lt x.natAbs (Int.natAbs_pos.mpr hp.ne')
  rw [Int.abs_eq_natAbs]
  omega

theorem construct_m_eq (w : Int → Option Int) (hw : ∀ x, in64 x → w x = some x)
    (a b p : Int) (hp1 : 1 < p) (hp2 : p ≤ 2 ^ 20)
    (ha0 : 0 ≤ a) (ha1 : a < p) (hb0 : 0 ≤ b) (hb1 : b < p) :
    construct_m w a b p = some (construct a b p) := by
  have hA : |a| ≤ 2 ^ 20 := by rw [abs_of_nonneg ha0]; omega
  have hB : |b| ≤ 2 ^ 20 := by rw [abs_of_nonneg hb0]; omega
  have h4 : |(4 : Int)| ≤ 4 := by norm_num
  have h27 : |(27 : Int)| ≤ 27 := by norm_num
  have b1 := abs_mul_le_mul _ _ _ _ h4 hA
  have b2 := abs_mul_le_mul _ _ _ _ b1 hA
  have b3 := abs_mul_le_mul _ _ _ _ b2 hA
  have c1 := abs_mul_le_mul _ _ _ _ h27 hB
  have c2 := abs_mul_le_mul _ _ _ _ c1 hB
  have c3 := le_trans (abs_tmod_le (27 * b * b) p) c2
  have s := le_trans (abs_add (4 * a * a * a) (Int.tmod (27 * b * b) p)) (add_le_add b3 c3)
  unfold construct_m construct
  simp only [hw _ (in64_of_abs_le _ _ b1 (by norm_num)), hw _ (in64_of_abs_le _ _ b2 (by norm_num)),
    hw _ (in64_of_abs_le _ _ b3 (by norm_num)), hw _ (in64_of_abs_le _ _ c1 (by norm_num)),
    hw _ (in64_of_abs_le _ _ c2 (by norm_num)), hw _ (in64_of_abs_le _ _ c3 (by norm_num)),
    hw _ (in64_of_abs_le _ _ s (by norm_num)), Option.bind_eq_bind, Option.some_bind,
    Option.pure_def]

theorem bezout_inv_abs (p t newt r newr : Int) (hp : 1 ≤ p) (h : bezout_inv p t newt r newr) :
    |t| ≤ p ∧ |newt| ≤ p := by
  have hle := bezout_inv_newt_le p t newt r newr h
  obtain ⟨hr, -, -, hd⟩ := h
  have hr1 : 1 ≤ r.natAbs := Int.natAbs_pos.mpr hr
  have h1 : newt.natAbs ≤ newt.natAbs * r.natAbs := Nat.le_mul_of_pos_right _ hr1
  have h2 : t.natAbs ≤ p.natAbs := by
    rcases hd with hd | hd
    · have : t.natAbs ≤ t.natAbs * (r.natAbs + 1) := Nat.le_mul_of_pos_right _ (by omega)
      omega
    · omega
  rw [Int.abs_eq_natAbs, Int.abs_eq_natAbs]
  constructor <;> omega

theorem abs_tdiv_le (r newr : Int) : |Int.tdiv r newr| ≤ |r| := by
  have h : (Int.tdiv r newr).natAbs = r.natAbs / newr.natAbs := Int.natAbs_tdiv r newr
  have hle : r.natAbs / newr.natAbs ≤ r.natAbs := Nat.div_le_self _ _
  rw [Int.abs_eq_natAbs, Int.abs_eq_natAbs]
  omega

theorem abs_tmod_le_right (r newr : Int) (h0 : newr ≠ 0) : |Int.tmod r newr| ≤ |newr| := by
  have h := natAbs_tmod r newr
  rw [Int.abs_eq_natAbs, Int.abs_eq_natAbs]
  have hlt := Nat.mod_lt r.natAbs (Int.natAbs_pos.mpr h0)
  omega

theorem mod_inv_loop_m_eq (w : Int → Option Int) (hw : ∀ x, in64 x → w x = some x)
    (p : Int) (hp1 : 1 ≤ p) (hp2 : p ≤ 2 ^ 20) (k : Nat) :
    ∀ (t newt r newr : Int), newr.natAbs < k → bezout_inv p t newt r newr →
      |r| ≤ 2 ^ 21 → |newr| ≤ 2 ^ 21 →
      mod_inv_loop_m w k t newt r newr = some (mod_inv_loop t newt r newr) := by
  induction k with
  | zero => intro t newt r newr h; omega
  | succ k ih =>
    intro t newt r newr h hinv hr hnr
    by_cases h0 : newr = 0
    · subst h0
      rw [mod_inv_loop_zero]
      simp [mod_inv_loop_m]
    · obtain ⟨ht, hnt⟩ := bezout_inv_abs p t newt r newr hp1 hinv
      have ht' : |t| ≤ 2 ^ 20 := le_trans ht hp2
      have hnt' : |newt| ≤ 2 ^ 20 := le_trans hnt hp2
      have q1 : |Int.tdiv r newr| ≤ 2 ^ 21 := le_trans (abs_tdiv_le r newr) hr
      have q2 := abs_mul_le_mul _ _ _ _ q1 hnt'
      have q3 := le_trans (abs_sub t (Int.tdiv r newr * newt)) (add_le_add ht' q2)
      have q4 := abs_mul_le_mul _ _ _ _ q1 hnr
      have q5 := le_trans (abs_sub r (Int.tdiv r newr * newr)) (add_le_add hr q4)
      have hdec : (r - Int.tdiv r newr * newr).natAbs < k := by
        rw [sub_tdiv_mul_eq_tmod, natAbs_tmod]
        have := Nat.mod_lt r.natAbs (Int.natAbs_pos.mpr h0)
        omega
      have hnext : |r - Int.tdiv r newr * newr| ≤ 2 ^ 21 := by
        rw [sub_tdiv_mul_eq_tmod]
        exact le_trans (abs_tmod_le_right r newr h0) hnr
      rw [mod_inv_loop_step _ _ _ _ h0, mod_inv_loop_m, if_neg h0]
      simp only [hw _ (in64_of_abs_le _ _ q1 (by norm_num)),
        hw _ (in64_of_abs_le _ _ q2 (by norm_num)), hw _ (in64_of_abs_le _ _ q3 (by norm_num)),
        hw _ (in64_of_abs_le _ _ q4 (by norm_num)), hw _ (in64_of_abs_le _ _ q5 (by norm_num)),
        Option.bind_eq_bind, Option.some_bind]
      exact ih _ _ _ _ hdec (bezout_inv_step p t newt r newr hinv h0) hnr hnext

theorem mod_inv_m_eq (w : Int → Option Int) (hw : ∀ x, in64 x → w x = some x)
    (c : EllipticCurve) (hp1 : 1 < c.p) (hp2 : c.p ≤ 2 ^ 20) (n : Int) (hn : |n| ≤ 2 ^ 21) :
    mod_inv_m w c n = some (mod_inv c n) := by
  have hloop := mod_inv_loop_m_eq w hw c.p hp1.le hp2 (n.natAbs + 1) 0 1 c.p n
    (Nat.lt_succ_self _) (bezout_inv_init c.p n (by omega))
    (by rw [abs_of_pos (by omega : (0 : Int) < c.p)]; omega) hn
  have hb := mod_inv_loop_bound c.p hp1 (n.natAbs + 1) 0 1 c.p n (Nat.lt_succ_self _)
    (bezout_inv_init c.p n (by omega))
  have hs : in64 ((mod_inv_loop 0 1 c.p n).1 + c.p) := by
    unfold in64; constructor <;> omega
  unfold mod_inv_m mod_inv
  simp only [hloop, Option.bind_eq_bind, Option.some_bind, Option.pure_def]
  split
  · rfl
  · split
    · simp only [hw _ hs, Option.some_bind]
    · rfl

/-- For every modulus `p > 1`, a value returned by `mod_inv` lies in `[0, p - 1]`. -/
theorem mod_inv_range (c : EllipticCurve) (hp1 : 1 < c.p) (n v : Int)
    (h : mod_inv c n = Except.ok v) : 0 ≤ v ∧ v < c.p := by
  have hb := mod_inv_loop_bound c.p hp1 (n.natAbs + 1) 0 1 c.p n (Nat.lt_succ_self _)
    (bezout_inv_init c.p n (by omega))
  unfold mod_inv at h
  simp only [] at h
  split at h
  · cases h
  · split at h
    · cases h; omega
    · cases h; omega

/-- The slope of the unbounded model, as `add_with` computes it. -/
theorem add_with_slope_branch (c : EllipticCurve) (inv : Int → Except Error Int) (P Q : Point)
    (hP : P.inf = false) (hQ : Q.inf = false) (hb : ¬ (P.x = Q.x ∧ P.y ≠ Q.y)) :
    add_with c inv P Q =
      match (if P.eq Q then
          match inv (2 * P.y) with
          | Except.error e => Except.error e
          | Except.ok v => Except.ok (Int.tmod ((3 * P.x * P.x + c.a) * v) c.p)
        else
          match inv (Q.x - P.x) with
          | Except.error e => Except.error e
          | Except.ok v => Except.ok (Int.tmod ((Q.y - P.y) * v) c.p) : Except Error Int) with
      | Except.error e => Except.error e
      | Except.ok m =>
        Except.ok (Point.finite
          (Int.tmod (Int.tmod (m * m - P.x - Q.x) c.p + c.p) c.p)
          (Int.tmod (Int.tmod (m * (P.x - Int.tmod (m * m - P.x - Q.x) c.p) - P.y) c.p + c.p)
            c.p)) := by
  unfold add_with
  simp only [hP, hQ, if_neg hb, Bool.false_eq_true, if_false]

theorem slope_m_eq (w : Int → Option Int) (hw : ∀ x, in64 x → w x = some x)
    (c : EllipticCurve) (hp1 : 1 < c.p) (hp2 : c.p ≤ 2 ^ 20) (ha0 : 0 ≤ c.a) (ha1 : c.a < c.p)
    (P Q : Point) (hPr : in_range c P) (hQr : in_range c Q) :
    slope_m w c P Q = some (if P.eq Q then
          match mod_inv c (2 * P.y) with
          | Except.error e => Except.error e
          | Except.ok v => Except.ok (Int.tmod ((3 * P.x * P.x + c.a) * v) c.p)
        else
          match mod_inv c (Q.x - P.x) with
          | Except.error e => Except.error e
          | Except.ok v => Except.ok (Int.tmod ((Q.y - P.y) * v) c.p)) := by
  unfold in_range at hPr hQr
  have hPx : |P.x| ≤ 2 ^ 20 := by rw [abs_of_nonneg hPr.1]; omega
  have hPy : |P.y| ≤ 2 ^ 20 := by rw [abs_of_nonneg hPr.2.2.1]; omega
  have hQx : |Q.x| ≤ 2 ^ 20 := by rw [abs_of_nonneg hQr.1]; omega
  have hQy : |Q.y| ≤ 2 ^ 20 := by rw [abs_of_nonneg hQr.2.2.1]; omega
  have hA : |c.a| ≤ 2 ^ 20 := by rw [abs_of_nonneg ha0]; omega
  unfold slope_m
  cases he : P.eq Q with
  | true =>
    simp only [if_true]
    have h3 : |(3 : Int)| ≤ 3 := by norm_num
    have h2 : |(2 : Int)| ≤ 2 := by norm_num
    have b1 := abs_mul_le_mul _ _ _ _ h3 hPx
    have b2 := abs_mul_le_mul _ _ _ _ b1 hPx
    have b3 := le_trans (abs_add (3 * P.x * P.x) c.a) (add_le_add b2 hA)
    have b4 := abs_mul_le_mul _ _ _ _ h2 hPy
    have hmi := mod_inv_m_eq w hw c hp1 hp2 (2 * P.y) (le_trans b4 (by norm_num))
    simp only [hw _ (in64_of_abs_le _ _ b1 (by norm_num)),
      hw _ (in64_of_abs_le _ _ b2 (by norm_num)), hw _ (in64_of_abs_le _ _ b3 (by norm_num)),
      hw _ (in64_of_abs_le _ _ b4 (by norm_num)), hmi, Option.bind_eq_bind, Option.some_bind]
    cases hv : mod_inv c (2 * P.y) with
    | error e => rfl
    | ok v =>
      obtain ⟨v0, v1⟩ := mod_inv_range c hp1 _ v hv
      have hV : |v| ≤ 2 ^ 20 := by rw [abs_of_nonneg v0]; omega
      have b5 := abs_mul_le_mul _ _ _ _ b3 hV
      have b6 := le_trans (abs_tmod_le ((3 * P.x * P.x + c.a) * v) c.p) b5
      simp only [hw _ (in64_of_abs_le _ _ b5 (by norm_num)),
        hw _ (in64_of_abs_le _ _ b6 (by norm_num)), Option.bind_eq_bind, Option.some_bind,
        Option.pure_def]
  | false =>
    simp only [Bool.false_eq_true, if_false]
    have b1 := le_trans (abs_sub Q.y P.y) (add_le_add hQy hPy)
    have b2 := le_trans (abs_sub Q.x P.x) (add_le_add hQx hPx)
    have hmi := mod_inv_m_eq w hw c hp1 hp2 (Q.x - P.x) (le_trans b2 (by norm_num))
    simp only [hw _ (in64_of_abs_le _ _ b1 (by norm_num)),
      hw _ (in64_of_abs_le _ _ b2 (by norm_num)), hmi, Option.bind_eq_bind, Option.some_bind]
    cases hv : mod_inv c (Q.x - P.x) with
    | error e => rfl
    | ok v =>
      obtain ⟨v0, v1⟩ := mod_inv_range c hp1 _ v hv
      have hV : |v| ≤ 2 ^ 20 := by rw [abs_of_nonneg v0]; omega
      have b5 := abs_mul_le_mul _ _ _ _ b1 hV
      have b6 := le_trans (abs_tmod_le ((Q.y - P.y) * v) c.p) b5
      simp only [hw _ (in64_of_abs_le _ _ b5 (by norm_num)),
        hw _ (in64_of_abs_le _ _ b6 (by norm_num)), Option.bind_eq_bind, Option.some_bind,
        Option.pure_def]

theorem slope_abs_lt (c : EllipticCurve) (hp1 : 1 < c.p) (P Q : Point) (m : Int)
    (h : (if P.eq Q then
          match mod_inv c (2 * P.y) with
          | Except.error e => Except.error e
          | Except.ok v => Except.ok (Int.tmod ((3 * P.x * P.x + c.a) * v) c.p)
        else
          match mod_inv c (Q.x - P.x) with
          | Except.error e => Except.error e
          | Except.ok v => Except.ok (Int.tmod ((Q.y - P.y) * v) c.p) : Except Error Int) =
        Except.ok m) : |m| < c.p := by
  have hp0 : 0 < c.p := by omega
  split at h
  · split at h
    · cases h
    · cases h; exact abs_tmod_lt _ _ hp0
  · split at h
    · cases h
    · cases h; exact abs_tmod_lt _ _ hp0

theorem add_m_eq (w : Int → Option Int) (hw : ∀ x, in64 x → w x = some x)
    (c : EllipticCurve) (hp1 : 1 < c.p) (hp2 : c.p ≤ 2 ^ 20) (ha0 : 0 ≤ c.a) (ha1 : c.a < c.p)
    (P Q : Point) (hPr : in_range c P) (hQr : in_range c Q) :
    add_m w c P Q = some (add c P Q) := by
  cases hP : P.inf with
  | true => simp [add_m, add, add_with, hP]
  | false =>
    cases hQ : Q.inf with
    | true => simp [add_m, add, add_with, hP, hQ]
    | false =>
      by_cases hb : P.x = Q.x ∧ P.y ≠ Q.y
      · simp [add_m, add, add_with, hP, hQ, hb]
      · have hs := slope_m_eq w hw c hp1 hp2 ha0 ha1 P Q hPr hQr
        unfold add
        rw [add_with_slope_branch c (mod_inv c) P Q hP hQ hb]
        unfold add_m
        simp only [hP, hQ, if_neg hb, Bool.false_eq_true, if_false, hs, Option.bind_eq_bind,
          Option.some_bind]
        generalize hS : (if P.eq Q then
          match mod_inv c (2 * P.y) with
          | Except.error e => Except.error e
          | Except.ok v => Except.ok (Int.tmod ((3 * P.x * P.x + c.a) * v) c.p)
        else
          match mod_inv c (Q.x - P.x) with
          | Except.error e => Except.error e
          | Except.ok v => Except.ok (Int.tmod ((Q.y - P.y) * v) c.p) : Except Error Int) = S
        cases S with
        | error e => rfl
        | ok m =>
          have hm := slope_abs_lt c hp1 P Q m hS
          unfold in_range at hPr hQr
          have hPx : |P.x| ≤ 2 ^ 20 := by rw [abs_of_nonneg hPr.1]; omega
          have hPy : |P.y| ≤ 2 ^ 20 := by rw [abs_of_nonneg hPr.2.2.1]; omega
          have hQx : |Q.x| ≤ 2 ^ 20 := by rw [abs_of_nonneg hQr.1]; omega
          have hM : |m| ≤ 2 ^ 20 := by omega
          have hpp : |c.p| ≤ 2 ^ 20 := by rw [abs_of_pos (by omega : (0 : Int) < c.p)]; exact hp2
          have b1 := abs_mul_le_mul _ _ _ _ hM hM
          have b2 := le_trans (abs_sub (m * m) P.x) (add_le_add b1 hPx)
          have b3 := le_trans (abs_sub (m * m - P.x) Q.x) (add_le_add b2 hQx)
          have b4 := le_trans (abs_tmod_le (m * m - P.x - Q.x) c.p) b3
          have b5 := le_trans (abs_sub P.x (Int.tmod (m * m - P.x - Q.x) c.p)) (add_le_add hPx b4)
          have b6 := abs_mul_le_mul _ _ _ _ hM b5
          have b7 := le_trans (abs_sub (m * (P.x - Int.tmod (m * m - P.x - Q.x) c.p)) P.y)
            (add_le_add b6 hPy)
          have b8 := le_trans
            (abs_tmod_le (m * (P.x - Int.tmod (m * m - P.x - Q.x) c.p) - P.y) c.p) b7
          have b9 := le_trans (abs_add (Int.tmod (m * m - P.x - Q.x) c.p) c.p) (add_le_add b4 hpp)
          have b10 := le_trans (abs_tmod_le (Int.tmod (m * m - P.x - Q.x) c.p + c.p) c.p) b9
          have b11 := le_trans (abs_add
            (Int.tmod (m * (P.x - Int.tmod (m * m - P.x - Q.x) c.p) - P.y) c.p) c.p)
            (add_le_add b8 hpp)
          have b12 := le_trans (abs_tmod_le
            (Int.tmod (m * (P.x - Int.tmod (m * m - P.x - Q.x) c.p) - P.y) c.p + c.p) c.p) b11
          simp only [hw _ (in64_of_abs_le _ _ b1 (by norm_num)),
            hw _ (in64_of_abs_le _ _ b2 (by norm_num)), hw _ (in64_of_abs_le _ _ b3 (by norm_num)),
            hw _ (in64_of_abs_le _ _ b4 (by norm_num)), hw _ (in64_of_abs_le _ _ b5 (by norm_num)),
            hw _ (in64_of_abs_le _ _ b6 (by norm_num)), hw _ (in64_of_abs_le _ _ b7 (by norm_num)),
            hw _ (in64_of_abs_le _ _ b8 (by norm_num)), hw _ (in64_of_abs_le _ _ b9 (by norm_num)),
            hw _ (in64_of_abs_le _ _ b10 (by norm_num)),
            hw _ (in64_of_abs_le _ _ b11 (by norm_num)),
            hw _ (in64_of_abs_le _ _ b12 (by norm_num)), Option.bind_eq_bind, Option.some_bind,
            Option.pure_def]

/-- Every point returned by `add` on arguments with coordinates in `[0, p - 1]`
has coordinates in `[0, p - 1]`. -/
theorem add_in_range (c : EllipticCurve) (hp : 1 ≤ c.p) (P Q R : Point)
    (hPr : in_range c P) (hQr : in_range c Q) (h : add c P Q = Except.ok R) :
    in_range c R := by
  cases hP : P.inf with
  | true =>
    have : add c P Q = Except.ok Q := by simp [add, add_with, hP]
    rw [this] at h; cases h; exact hQr
  | false =>
    cases hQ : Q.inf with
    | true =>
      have : add c P Q = Except.ok P := by simp [add, add_with, hP, hQ]
      rw [this] at h; cases h; exact hPr
    | false =>
      by_cases hb : P.x = Q.x ∧ P.y ≠ Q.y
      · have : add c P Q = Except.ok Point.infinity := by simp [add, add_with, hP, hQ, hb]
        rw [this] at h; cases h
        unfold in_range Point.infinity
        simp only []
        omega
      · exact (add_slope_in_range c hp P Q R hP hQ hb h).2

theorem multiply_loop_m_eq (w : Int → Option Int) (hw : ∀ x, in64 x → w x = some x)
    (c : EllipticCurve) (hp1 : 1 < c.p) (hp2 : c.p ≤ 2 ^ 20) (ha0 : 0 ≤ c.a) (ha1 : c.a < c.p)
    (k : Nat) :
    ∀ (R Q : Point) (n : Int), n.toNat < k → in64 n → in_range c R → in_range c Q →
      multiply_loop_m w c k R Q n = some (multiply_loop (add c) R Q n) := by
  induction k with
  | zero => intro R Q n h; omega
  | succ k ih =>
    intro R Q n h hn hR hQ
    by_cases h0 : n > 0
    · have hdiv : Int.tdiv n 2 = n / 2 := Int.tdiv_eq_ediv (by omega) (by omega)
      have hmod : Int.tmod n 2 = n % 2 := Int.tmod_eq_emod (by omega) (by omega)
      have hlt : (Int.tdiv n 2).toNat < k := by omega
      unfold in64 at hn
      have hbit : in64 (Int.tmod n 2) := by unfold in64; omega
      have hhalf : in64 (Int.tdiv n 2) := by unfold in64; omega
      rw [multiply_loop_step _ _ _ _ h0, multiply_loop_m, if_pos h0]
      simp only [hw _ hbit, hw _ hhalf, add_m_eq w hw c hp1 hp2 ha0 ha1 Q Q hQ hQ,
        add_m_eq w hw c hp1 hp2 ha0 ha1 R Q hR hQ, Option.bind_eq_bind, Option.some_bind,
        Option.pure_def]
      by_cases hodd : Int.tmod n 2 = 1
      · simp only [if_pos hodd, Option.some_bind]
        cases hR1 : add c R Q with
        | error e => rfl
        | ok R1 =>
          simp only []
          cases hQ1 : add c Q Q with
          | error e => rfl
          | ok Q1 =>
            simp only [Option.some_bind]
            exact ih R1 Q1 _ hlt hhalf (add_in_range c hp1.le R Q R1 hR hQ hR1)
              (add_in_range c hp1.le Q Q Q1 hQ hQ hQ1)
      · simp only [if_neg hodd, Option.some_bind]
        cases hQ1 : add c Q Q with
        | error e => rfl
        | ok Q1 =>
          simp only [Option.some_bind]
          exact ih R Q1 _ hlt hhalf hR (add_in_range c hp1.le Q Q Q1 hQ hQ hQ1)
    · rw [multiply_loop_nonpos _ _ _ _ h0, multiply_loop_m, if_neg h0]
      rfl

theorem multiply_m_eq (w : Int → Option Int) (hw : ∀ x, in64 x → w x = some x)
    (c : EllipticCurve) (hp1 : 1 < c.p) (hp2 : c.p ≤ 2 ^ 20) (ha0 : 0 ≤ c.a) (ha1 : c.a < c.p)
    (P : Point) (hP : in_range c P) (n : Int) (hn : in64 n) :
    multiply_m w c P n = some (multiply c P n) := by
  unfold multiply_m multiply
  apply multiply_loop_m_eq w hw c hp1 hp2 ha0 ha1 _ _ _ _ (Nat.lt_succ_self _) hn _ hP
  unfold in_range Point.infinity
  simp only []
  omega

/-- The machine model agrees with the unbounded model for every arithmetic `w`
that gives the exact result of each operation whose result is representable in
64 bits: under the bounds of C20 every operation of the constructor, of
`mod_inv` as `add` calls it, of `add` and of `multiply` has a representable
result. -/
theorem machine_model_eq (w : Int → Option Int) (hw : ∀ x, in64 x → w x = some x)
    (a b p : Int) (hp1 : 1 < p) (hp2 : p ≤ 2 ^ 20)
    (ha0 : 0 ≤ a) (ha1 : a < p) (hb0 : 0 ≤ b) (hb1 : b < p)
    (P Q : Point) (hP : in_range ⟨a, b, p⟩ P) (hQ : in_range ⟨a, b, p⟩ Q)
    (n : Int) (hn : in64 n) :
    construct_m w a b p = some (construct a b p) ∧
      mod_inv_m w ⟨a, b, p⟩ (2 * P.y) = some (mod_inv ⟨a, b, p⟩ (2 * P.y)) ∧
      mod_inv_m w ⟨a, b, p⟩ (Q.x - P.x) = some (mod_inv ⟨a, b, p⟩ (Q.x - P.x)) ∧
      add_m w ⟨a, b, p⟩ P Q = some (add ⟨a, b, p⟩ P Q) ∧
      multiply_m w ⟨a, b, p⟩ P n = some (multiply ⟨a, b, p⟩ P n) := by
  have hPr := hP
  have hQr := hQ
  unfold in_range at hPr hQr
  simp only [] at hPr hQr
  refine ⟨construct_m_eq w hw a b p hp1 hp2 ha0 ha1 hb0 hb1, ?_, ?_,
    add_m_eq w hw ⟨a, b, p⟩ hp1 hp2 ha0 ha1 P Q hP hQ,
    multiply_m_eq w hw ⟨a, b, p⟩ hp1 hp2 ha0 ha1 P hP n hn⟩
  · apply mod_inv_m_eq w hw ⟨a, b, p⟩ hp1 hp2
    rw [abs_le]; constructor <;> omega
  · apply mod_inv_m_eq w hw ⟨a, b, p⟩ hp1 hp2
    rw [abs_le]; constructor <;> omega

/-- C20. For every modulus `1 < p <= 2^20`, coefficients `0 <= a, b < p`,
points `P`, `Q` with coordinates in `[0, p - 1]` and every 64-bit scalar `n`:
in the trapping model (`trap64`, where an operation whose result leaves the
signed 64-bit range has no result) the constructor, `mod_inv` as called from
`add`, `add` and `multiply` all have a result, so no intermediate value leaves
the range; and in the wrap-around model (`wrapped`, every result reduced modulo
`2^64`) each of them returns exactly what the unbounded-integer model returns. -/
theorem machine_model_exact (a b p : Int) (hp1 : 1 < p) (hp2 : p ≤ 2 ^ 20)
    (ha0 : 0 ≤ a) (ha1 : a < p) (hb0 : 0 ≤ b) (hb1 : b < p)
    (P Q : Point) (hP : in_range ⟨a, b, p⟩ P) (hQ : in_range ⟨a, b, p⟩ Q)
    (n : Int) (hn : in64 n) :
    (construct_m trap64 a b p = some (construct a b p) ∧
      mod_inv_m trap64 ⟨a, b, p⟩ (2 * P.y) = some (mod_inv ⟨a, b, p⟩ (2 * P.y)) ∧
      mod_inv_m trap64 ⟨a, b, p⟩ (Q.x - P.x) = some (mod_inv ⟨a, b, p⟩ (Q.x - P.x)) ∧
      add_m trap64 ⟨a, b, p⟩ P Q = some (add ⟨a, b, p⟩ P Q) ∧
      multiply_m trap64 ⟨a, b, p⟩ P n = some (multiply ⟨a, b, p⟩ P n)) ∧
    (construct_m wrapped a b p = some (construct a b p) ∧
      mod_inv_m wrapped ⟨a, b, p⟩ (2 * P.y) = some (mod_inv ⟨a, b, p⟩ (2 * P.y)) ∧
      mod_inv_m wrapped ⟨a, b, p⟩ (Q.x - P.x) = some (mod_inv ⟨a, b, p⟩ (Q.x - P.x)) ∧
      add_m wrapped ⟨a, b, p⟩ P Q = some (add ⟨a, b, p⟩ P Q) ∧
      multiply_m wrapped ⟨a, b, p⟩ P n = some (multiply ⟨a, b, p⟩ P n)) :=
  ⟨machine_model_eq trap64 trap64_of_in64 a b p hp1 hp2 ha0 ha1 hb0 hb1 P Q hP hQ n hn,
    machine_model_eq wrapped wrapped_of_in64 a b p hp1 hp2 ha0 ha1 hb0 hb1 P Q hP hQ n hn⟩

/-- Witness of `machine_model_exact`: curve `(2, 3, 97)`, `P = (3, 6)`,
`Q = (80, 10)`, `n = 7`. -/
theorem machine_model_exact_witness :
    (construct_m trap64 2 3 97 = some (construct 2 3 97) ∧
      mod_inv_m trap64 ⟨2, 3, 97⟩ (2 * (Point.finite 3 6).y) =
        some (mod_inv ⟨2, 3, 97⟩ (2 * (Point.finite 3 6).y)) ∧
      mod_inv_m trap64 ⟨2, 3, 97⟩ ((Point.finite 80 10).x - (Point.finite 3 6).x) =
        some (mod_inv ⟨2, 3, 97⟩ ((Point.finite 80 10).x - (Point.finite 3 6).x)) ∧
      add_m trap64 ⟨2, 3, 97⟩ (Point.finite 3 6) (Point.finite 80 10) =
        some (add ⟨2, 3, 97⟩ (Point.finite 3 6) (Point.finite 80 10)) ∧
      multiply_m trap64 ⟨2, 3, 97⟩ (Point.finite 3 6) 7 =
        some (multiply ⟨2, 3, 97⟩ (Point.finite 3 6) 7)) ∧
    (construct_m wrapped 2 3 97 = some (construct 2 3 97) ∧
      mod_inv_m wrapped ⟨2, 3, 97⟩ (2 * (Point.finite 3 6).y) =
        some (mod_inv ⟨2, 3, 97⟩ (2 * (Point.finite 3 6).y)) ∧
      mod_inv_m wrapped ⟨2, 3, 97⟩ ((Point.finite 80 10).x - (Point.finite 3 6).x) =
        some (mod_inv ⟨2, 3, 97⟩ ((Point.finite 80 10).x - (Point.finite 3 6).x)) ∧
      add_m wrapped ⟨2, 3, 97⟩ (Point.finite 3 6) (Point.finite 80 10) =
        some (add ⟨2, 3, 97⟩ (Point.finite 3 6) (Point.finite 80 10)) ∧
      multiply_m wrapped ⟨2, 3, 97⟩ (Point.finite 3 6) 7 =
        some (multiply ⟨2, 3, 97⟩ (Point.finite 3 6) 7)) :=
  machine_model_exact 2 3 97 (by decide) (by decide) (by decide) (by decide) (by decide)
    (by decide) (Point.finite 3 6) (Point.finite 80 10) (by decide) (by decide) 7 (by decide)

/-! ### The program on 64-bit integers: claims restated on the wrap-around model -/

theorem wrap64_of_in64 (x : Int) (h : in64 x) : wrap64 x = x := by
  unfold in64 at h
  unfold wrap64
  omega

theorem wrapped_eq (x : Int) : wrapped x = some (wrap64 x) := rfl

/-- The last two statements of `add` in the wrap-around model: for
`1 <= p <= 2^62` the coordinate `(x3 + p) % p` computed from any 64-bit value
`u` with `x3 = u % p` lies in `[0, p - 1]`. -/
theorem wrap64_normalise_range (u p : Int) (hp1 : 1 ≤ p) (hp2 : p ≤ 2 ^ 62) :
    0 ≤ wrap64 (Int.tmod (wrap64 (wrap64 (Int.tmod u p) + p)) p) ∧
      wrap64 (Int.tmod (wrap64 (wrap64 (Int.tmod u p) + p)) p) < p := by
  have hp0 : 0 < p := by omega
  have h1 := abs_lt.mp (abs_tmod_lt u p hp0)
  have e1 : wrap64 (Int.tmod u p) = Int.tmod u p :=
    wrap64_of_in64 _ (by unfold in64; constructor <;> omega)
  have e2 : wrap64 (Int.tmod u p + p) = Int.tmod u p + p :=
    wrap64_of_in64 _ (by unfold in64; constructor <;> omega)
  have h3 := tmod_add_tmod_range u p hp0
  have e3 : wrap64 (Int.tmod (Int.tmod u p + p) p) = Int.tmod (Int.tmod u p + p) p :=
    wrap64_of_in64 _ (by unfold in64; constructor <;> omega)
  rw [e1, e2, e3]
  exact h3

/-- C13 (counterexample). With `p = 2^63 - 25`, the finite points `P = (1, 1)`
and `Q = (2, 11)` take the slope branch of `add`, and the wrap-around run
returns the `x` coordinate `-9223372036854775736`, which is negative: the sum
`x3 + p` with `x3 = 97` overflows. -/
theorem add_m_out_of_range :
    (1 : Int) ≤ 2 ^ 63 - 25 ∧ in64 (2 ^ 63 - 25) ∧
      (Point.finite 1 1).inf = false ∧ (Point.finite 2 11).inf = false ∧
      ¬ ((Point.finite 1 1).x = (Point.finite 2 11).x ∧
        (Point.finite 1 1).y ≠ (Point.finite 2 11).y) ∧
      add_m wrapped ⟨1, 1, 2 ^ 63 - 25⟩ (Point.finite 1 1) (Point.finite 2 11) =
        some (Except.ok (Point.finite (-9223372036854775736) 9223372036854774822)) ∧
      ¬ in_range ⟨1, 1, 2 ^ 63 - 25⟩
        (Point.finite (-9223372036854775736) 9223372036854774822) := by
  refine ⟨by decide, by decide, rfl, rfl, by decide, rfl, by decide⟩

/-- C13 (amended). For every curve with `1 <= p <= 2^62` and all finite points
`P`, `Q` with arbitrary coordinates: when the wrap-around run of `add(P, Q)`
takes the slope branch (not the inverse-point branch) and returns `R`, then `R`
is finite and both its coordinates lie in `[0, p - 1]`. -/
theorem add_m_slope_in_range (c : EllipticCurve) (hp1 : 1 ≤ c.p) (hp2 : c.p ≤ 2 ^ 62)
    (P Q R : Point) (hP : P.inf = false) (hQ : Q.inf = false)
    (hb : ¬ (P.x = Q.x ∧ P.y ≠ Q.y))
    (h : add_m wrapped c P Q = some (Except.ok R)) : R.inf = false ∧ in_range c R := by
  unfold add_m at h
  simp only [hP, hQ, if_neg hb, Bool.false_eq_true, if_false] at h
  cases hs : slope_m wrapped c P Q with
  | none => rw [hs] at h; simp at h
  | some S =>
    rw [hs] at h
    cases S with
    | error e => simp at h
    | ok m =>
      simp only [wrapped_eq, Option.bind_eq_bind, Option.some_bind, Option.pure_def,
        Option.some.injEq, Except.ok.injEq] at h
      rw [← h]
      exact ⟨rfl, (wrap64_normalise_range _ c.p hp1 hp2).1,
        (wrap64_normalise_range _ c.p hp1 hp2).2, (wrap64_normalise_range _ c.p hp1 hp2).1,
        (wrap64_normalise_range _ c.p hp1 hp2).2⟩

/-- Witness of `add_m_slope_in_range`: curve `(2, 3, 97)`, doubling `(3, 6)`. -/
theorem add_m_slope_in_range_witness :
    (Point.finite 80 10).inf = false ∧ in_range ⟨2, 3, 97⟩ (Point.finite 80 10) :=
  add_m_slope_in_range ⟨2, 3, 97⟩ (by decide) (by decide) (Point.finite 3 6) (Point.finite 3 6)
    (Point.finite 80 10) rfl rfl (by decide) rfl

/-- The machine constructor agrees with the unbounded one whenever
`4*a^3 + 27*b^2` does not overflow. -/
theorem construct_m_eq_of_no_overflow (w : Int → Option Int)
    (hw : ∀ x, in64 x → w x = some x) (a b p : Int) (ha : 0 ≤ a)
    (hov : 4 * a * a * a + 27 * b * b < 2 ^ 63) :
    construct_m w a b p = some (construct a b p) := by
  have hbb : 0 ≤ b * b := mul_self_nonneg b
  have haa : 0 ≤ a * a := mul_self_nonneg a
  have haaa : 0 ≤ a * a * a := mul_nonneg haa ha
  have hb1 : |b| ≤ b * b := by
    rcases le_or_lt 0 b with h | h
    · rw [abs_of_nonneg h]
      rcases eq_or_lt_of_le h with h0 | h0
      · rw [← h0]; simp
      · nlinarith
    · rw [abs_of_neg h]; nlinarith
  have ha1 : a ≤ a * a := by
    rcases eq_or_lt_of_le ha with h0 | h0
    · rw [← h0]; simp
    · nlinarith
  have ha2 : a * a ≤ a * a * a := by
    rcases eq_or_lt_of_le ha with h0 | h0
    · rw [← h0]; simp
    · nlinarith
  have hy : 0 ≤ 27 * b * b := by nlinarith
  have hm0 : 0 ≤ Int.tmod (27 * b * b) p := Int.tmod_nonneg _ hy
  have hm1 : Int.tmod (27 * b * b) p ≤ 27 * b * b := ((tmod_sign (27 * b * b) p).1 hy).2
  have i1 : in64 (4 * a) := by unfold in64; constructor <;> nlinarith
  have i2 : in64 (4 * a * a) := by unfold in64; constructor <;> nlinarith
  have i3 : in64 (4 * a * a * a) := by unfold in64; constructor <;> nlinarith
  have i4 : in64 (27 * b) := by
    have := abs_le.mp hb1
    unfold in64; constructor <;> nlinarith
  have i5 : in64 (27 * b * b) := by unfold in64; constructor <;> nlinarith
  have i6 : in64 (Int.tmod (27 * b * b) p) := by unfold in64; constructor <;> nlinarith
  have i7 : in64 (4 * a * a * a + Int.tmod (27 * b * b) p) := by
    unfold in64; constructor <;> nlinarith
  unfold construct_m construct
  simp only [hw _ i1, hw _ i2, hw _ i3, hw _ i4, hw _ i5, hw _ i6, hw _ i7,
    Option.bind_eq_bind, Option.some_bind, Option.pure_def]

/-- C19 (counterexample). For `p = 97`: with `a = 2^21`, `b = 0` the product
`4*a*a*a = 2^65` wraps to `0` and the wrap-around run of the constructor
fails although `a != 0`; with `a = 0`, `b = 97 * 2^31` the product `27*b*b`
wraps and the constructor succeeds although `a = 0` and `p` divides `b`. -/
theorem construct_m_wraps :
    Nat.Prime (97 : Int).toNat ∧ (3 : Int) < 97 ∧
      ((0 : Int) ≤ 2 ^ 21 ∧ in64 (2 ^ 21) ∧ (2 ^ 21 : Int) ≠ 0 ∧
        construct_m wrapped (2 ^ 21) 0 97 = some (Except.error Error.invalid_argument)) ∧
      (in64 (97 * 2 ^ 31) ∧ (97 : Int) ∣ 97 * 2 ^ 31 ∧
        construct_m wrapped 0 (97 * 2 ^ 31) 97 = some (Except.ok ⟨0, 97 * 2 ^ 31, 97⟩)) := by
  refine ⟨by norm_num [Int.toNat], by decide, ⟨by decide, by decide, by decide, rfl⟩,
    ⟨by decide, ⟨2 ^ 31, rfl⟩, rfl⟩⟩

/-- C19 (amended). For every prime `p > 3` and all integers `a >= 0` and `b`
with `4*a^3 + 27*b^2 < 2^63`, so that no operation of the check overflows, the
wrap-around run of the constructor fails exactly when `a = 0` and `p` divides
`b`; in every other case it succeeds and stores `a`, `b`, `p` unchanged. -/
theorem construct_m_fails_iff (a b p : Int) (hp : Nat.Prime p.toNat) (h3 : 3 < p)
    (ha : 0 ≤ a) (hov : 4 * a * a * a + 27 * b * b < 2 ^ 63) :
    (construct_m wrapped a b p = some (Except.error Error.invalid_argument) ↔
        a = 0 ∧ p ∣ b) ∧
      (¬ (a = 0 ∧ p ∣ b) → construct_m wrapped a b p = some (Except.ok ⟨a, b, p⟩)) := by
  have e := construct_m_eq_of_no_overflow wrapped wrapped_of_in64 a b p ha hov
  obtain ⟨h1, h2⟩ := construct_fails_iff a b p hp h3 ha
  rw [e]
  constructor
  · constructor
    · intro h
      exact h1.mp (Option.some.inj h)
    · intro h
      rw [h1.mpr h]
  · intro h
    rw [h2 h]

/-- Witness of `construct_m_fails_iff`: `p = 5`, `a = 0`, `b = 10`. -/
theorem construct_m_fails_iff_witness :
    (construct_m wrapped 0 10 5 = some (Except.error Error.invalid_argument) ↔
        (0 : Int) = 0 ∧ (5 : Int) ∣ 10) ∧
      (¬ ((0 : Int) = 0 ∧ (5 : Int) ∣ 10) →
        construct_m wrapped 0 10 5 = some (Except.ok ⟨0, 10, 5⟩)) :=
  construct_m_fails_iff 0 10 5 (by norm_num [Int.toNat]) (by decide) (by decide) (by decide)

/-- C17 (counterexample). On the curve `(1, 1, 2097169)` with `2097169` an odd
prime, the finite point `P = (2097168, 1)` has coordinates in `[0, p - 1]` and
`P.y != 0`; the residue `m = 2` satisfies `m * (2 * P.y) = 3 * P.x^2 + a (mod p)`
and the tangent formula gives `(6, 2097154)`, but the wrap-around run of
`add(P, P)` returns `(119812, 1086813)`: `(3 * P.x * P.x + a) * mod_inv(2)`
overflows. -/
theorem add_m_tangent_wraps :
    Nat.Prime (2097169 : Int).toNat ∧ (2097169 : Int) ≠ 2 ∧
      in_range ⟨1, 1, 2097169⟩ (Point.finite 2097168 1) ∧ (Point.finite 2097168 1).y ≠ 0 ∧
      ((2 : Int) * (2 * 1) ≡ 3 * 2097168 ^ 2 + 1 [ZMOD 2097169]) ∧
      ((2 : Int) ^ 2 - 2 * 2097168) % 2097169 = 6 ∧
      ((2 : Int) * (2097168 - 6) - 1) % 2097169 = 2097154 ∧
      add_m wrapped ⟨1, 1, 2097169⟩ (Point.finite 2097168 1) (Point.finite 2097168 1) =
        some (Except.ok (Point.finite 119812 1086813)) ∧
      Point.finite 119812 1086813 ≠ Point.finite 6 2097154 := by
  refine ⟨by norm_num [Int.toNat], by decide, by decide, by decide, by decide, by decide,
    by decide, rfl, by decide⟩

/-- C17 (amended). For every curve with `p` an odd prime, `p <= 2^20` and
`0 <= a < p`, and every finite point `P` with coordinates in `[0, p - 1]` and
`P.y != 0`, there is a unique residue `m` in `[0, p - 1]` with
`m * (2 * P.y) = 3 * P.x^2 + a (mod p)`, and the wrap-around run of `add(P, P)`
returns the finite point `(x3, y3)` with `x3 = (m^2 - 2 * P.x) mod p` and
`y3 = (m * (P.x - x3) - P.y) mod p`, both in `[0, p - 1]`. -/
theorem add_m_self_tangent (c : EllipticCurve) (hp : Nat.Prime c.p.toNat) (hp2 : c.p ≠ 2)
    (hp3 : c.p ≤ 2 ^ 20) (ha0 : 0 ≤ c.a) (ha1 : c.a < c.p)
    (P : Point) (hfin : P.inf = false) (hr : in_range c P) (hy : P.y ≠ 0) :
    ∃ m : Int, 0 ≤ m ∧ m < c.p ∧ m * (2 * P.y) ≡ 3 * P.x ^ 2 + c.a [ZMOD c.p] ∧
      (∀ m' : Int, 0 ≤ m' → m' < c.p →
        m' * (2 * P.y) ≡ 3 * P.x ^ 2 + c.a [ZMOD c.p] → m' = m) ∧
      add_m wrapped c P P = some (Except.ok (Point.finite ((m ^ 2 - 2 * P.x) % c.p)
        ((m * (P.x - (m ^ 2 - 2 * P.x) % c.p) - P.y) % c.p))) ∧
      in_range c (Point.finite ((m ^ 2 - 2 * P.x) % c.p)
        ((m * (P.x - (m ^ 2 - 2 * P.x) % c.p) - P.y) % c.p)) := by
  have hp1 : 1 < c.p := by have := hp.two_le; omega
  obtain ⟨m, m0, m1, hm, hu, hadd, hrange⟩ := add_self_tangent c hp hp2 P hfin hr hy
  refine ⟨m, m0, m1, hm, hu, ?_, hrange⟩
  rw [add_m_eq wrapped wrapped_of_in64 c hp1 hp3 ha0 ha1 P P hr hr, hadd]

/-- Witness of `add_m_self_tangent`: curve `(2, 3, 97)`, `P = (3, 6)`. -/
theorem add_m_self_tangent_witness :
    ∃ m : Int, 0 ≤ m ∧ m < (97 : Int) ∧
      m * (2 * (Point.finite 3 6).y) ≡ 3 * (Point.finite 3 6).x ^ 2 + 2 [ZMOD 97] ∧
      (∀ m' : Int, 0 ≤ m' → m' < (97 : Int) →
        m' * (2 * (Point.finite 3 6).y) ≡ 3 * (Point.finite 3 6).x ^ 2 + 2 [ZMOD 97] →
        m' = m) ∧
      add_m wrapped ⟨2, 3, 97⟩ (Point.finite 3 6) (Point.finite 3 6) =
        some (Except.ok (Point.finite ((m ^ 2 - 2 * (Point.finite 3 6).x) % 97)
          ((m * ((Point.finite 3 6).x - (m ^ 2 - 2 * (Point.finite 3 6).x) % 97) -
            (Point.finite 3 6).y) % 97))) ∧
      in_range ⟨2, 3, 97⟩ (Point.finite ((m ^ 2 - 2 * (Point.finite 3 6).x) % 97)
          ((m * ((Point.finite 3 6).x - (m ^ 2 - 2 * (Point.finite 3 6).x) % 97) -
            (Point.finite 3 6).y) % 97)) :=
  add_m_self_tangent ⟨2, 3, 97⟩ (by norm_num [Int.toNat]) (by decide) (by decide) (by decide)
    (by decide) (Point.finite 3 6) rfl (by decide) (by decide)

theorem infinity_in_range (c : EllipticCurve) (hp : 1 ≤ c.p) : in_range c Point.infinity := by
  unfold in_range Point.infinity
  simp only []
  omega

theorem rep_in_range (c : EllipticCurve) (hp : 1 ≤ c.p) (P : Point) (hP : in_range c P) :
    ∀ (n : Nat) (R : Point), rep c P n = Except.ok R → in_range c R := by
  intro n
  induction n with
  | zero =>
    intro R h
    have : R = Point.infinity := by
      unfold rep at h; simp only [rep_with] at h; cases h; rfl
    rw [this]; exact infinity_in_range c hp
  | succ n ih =>
    intro R h
    unfold rep at h ih
    simp only [rep_with] at h
    cases hR0 : rep_with (add c) P n with
    | error e => rw [hR0] at h; cases h
    | ok R0 =>
      rw [hR0] at h
      exact add_in_range c hp R0 P R (ih R0 hR0) hP h

theorem rep_m_eq (w : Int → Option Int) (hw : ∀ x, in64 x → w x = some x)
    (c : EllipticCurve) (hp1 : 1 < c.p) (hp2 : c.p ≤ 2 ^ 20) (ha0 : 0 ≤ c.a) (ha1 : c.a < c.p)
    (P : Point) (hP : in_range c P) (n : Nat) : rep_m w c P n = some (rep c P n) := by
  induction n with
  | zero => rfl
  | succ n ih =>
    simp only [rep_m, ih]
    cases hR0 : rep c P n with
    | error e =>
      simp only []
      unfold rep at hR0 ⊢
      simp only [rep_with, hR0]
    | ok R0 =>
      simp only []
      rw [add_m_eq w hw c hp1 hp2 ha0 ha1 R0 P (rep_in_range c hp1.le P hP n R0 hR0) hP]
      unfold rep at hR0 ⊢
      simp only [rep_with, hR0]

theorem multiply_loop_in_range (c : EllipticCurve) (hp : 1 ≤ c.p) (k : Nat) :
    ∀ (R Q R' : Point) (n : Int), n.toNat < k → in_range c R → in_range c Q →
      multiply_loop (add c) R Q n = Except.ok R' → in_range c R' := by
  induction k with
  | zero => intro R Q R' n h; omega
  | succ k ih =>
    intro R Q R' n h hR hQ hres
    by_cases h0 : n > 0
    · rw [multiply_loop_step _ _ _ _ h0] at hres
      have hdiv : Int.tdiv n 2 = n / 2 := Int.tdiv_eq_ediv (by omega) (by omega)
      have hlt : (Int.tdiv n 2).toNat < k := by omega
      by_cases hodd : Int.tmod n 2 = 1
      · simp only [if_pos hodd] at hres
        cases hR1 : add c R Q with
        | error e => rw [hR1] at hres; cases hres
        | ok R1 =>
          rw [hR1] at hres
          simp only [] at hres
          cases hQ1 : add c Q Q with
          | error e => rw [hQ1] at hres; cases hres
          | ok Q1 =>
            rw [hQ1] at hres
            exact ih R1 Q1 R' _ hlt (add_in_range c hp R Q R1 hR hQ hR1)
              (add_in_range c hp Q Q Q1 hQ hQ hQ1) hres
      · simp only [if_neg hodd] at hres
        cases hQ1 : add c Q Q with
        | error e => rw [hQ1] at hres; cases hres
        | ok Q1 =>
          rw [hQ1] at hres
          exact ih R Q1 R' _ hlt hR (add_in_range c hp Q Q Q1 hQ hQ hQ1) hres
    · rw [multiply_loop_nonpos _ _ _ _ h0] at hres
      cases hres; exact hR

theorem multiply_in_range (c : EllipticCurve) (hp : 1 ≤ c.p) (P R : Point) (n : Int)
    (hP : in_range c P) (h : multiply c P n = Except.ok R) : in_range c R :=
  multiply_loop_in_range c hp (n.toNat + 1) Point.infinity P R n (Nat.lt_succ_self _)
    (infinity_in_range c hp) hP h

theorem construct_m_ok (a b p : Int) (c : EllipticCurve) (hp1 : 1 < p) (hp2 : p ≤ 2 ^ 20)
    (ha0 : 0 ≤ a) (ha1 : a < p) (hb0 : 0 ≤ b) (hb1 : b < p)
    (hc : construct_m wrapped a b p = some (Except.ok c)) :
    construct a b p = Except.ok c ∧ c = ⟨a, b, p⟩ := by
  rw [construct_m_eq wrapped wrapped_of_in64 a b p hp1 hp2 ha0 ha1 hb0 hb1] at hc
  have h := Option.some.inj hc
  exact ⟨h, construct_ok a b p c h⟩

set_option maxRecDepth 4000 in
/-- C1 (counterexample). Wrap-around runs. On the curve `(2, 3, 97)` with
`P = (96, 0)`, `multiply(P, 1)` fails while `rep(1) = add(infinity(), P)`
returns `P`; on the curve `(0, 2, 5)` with `P = (4, 1)`, `multiply(P, 3)`
returns `(2, 3)` while `rep(3)` returns `(2, 0)`; on the curve
`(1, 716, 2097169)` with `P = (2097161, 14)`, where products overflow,
`multiply(P, 3)` returns `(99606, 849439)` while `rep(3)` returns
`(99606, 1247702)`. -/
theorem multiply_m_ne_rep :
    (Nat.Prime (97 : Int).toNat ∧ construct_m wrapped 2 3 97 = some (Except.ok ⟨2, 3, 97⟩) ∧
      in_range ⟨2, 3, 97⟩ (Point.finite 96 0) ∧ on_curve ⟨2, 3, 97⟩ (Point.finite 96 0) ∧
      multiply_m wrapped ⟨2, 3, 97⟩ (Point.finite 96 0) 1 =
        some (Except.error Error.runtime_error) ∧
      rep_m wrapped ⟨2, 3, 97⟩ (Point.finite 96 0) 1 = some (Except.ok (Point.finite 96 0))) ∧
    (Nat.Prime (5 : Int).toNat ∧ construct_m wrapped 0 2 5 = some (Except.ok ⟨0, 2, 5⟩) ∧
      in_range ⟨0, 2, 5⟩ (Point.finite 4 1) ∧ on_curve ⟨0, 2, 5⟩ (Point.finite 4 1) ∧
      multiply_m wrapped ⟨0, 2, 5⟩ (Point.finite 4 1) 3 = some (Except.ok (Point.finite 2 3)) ∧
      rep_m wrapped ⟨0, 2, 5⟩ (Point.finite 4 1) 3 = some (Except.ok (Point.finite 2 0)) ∧
      (Point.finite 2 3).eq (Point.finite 2 0) = false) ∧
    (Nat.Prime (2097169 : Int).toNat ∧
      construct_m wrapped 1 716 2097169 = some (Except.ok ⟨1, 716, 2097169⟩) ∧
      in_range ⟨1, 716, 2097169⟩ (Point.finite 2097161 14) ∧
      on_curve ⟨1, 716, 2097169⟩ (Point.finite 2097161 14) ∧
      multiply_m wrapped ⟨1, 716, 2097169⟩ (Point.finite 2097161 14) 3 =
        some (Except.ok (Point.finite 99606 849439)) ∧
      rep_m wrapped ⟨1, 716, 2097169⟩ (Point.finite 2097161 14) 3 =
        some (Except.ok (Point.finite 99606 1247702)) ∧
      (Point.finite 99606 849439).eq (Point.finite 99606 1247702) = false) := by
  refine ⟨⟨by norm_num [Int.toNat], by rfl, by decide, by decide, by rfl, by rfl⟩,
    ⟨by norm_num [Int.toNat], by rfl, by decide, by decide, by rfl, by rfl, by rfl⟩,
    ⟨by norm_num [Int.toNat], by rfl, by decide, by decide, by rfl, by rfl, by rfl⟩⟩

/-- C1 (amended). For every curve `(a, b, p)` with `p` prime, `p <= 2^20` and
`0 <= a, b < p` on which construction succeeds, every finite point `P` with
coordinates in `[0, p - 1]` on the curve and every `0 <= n < 2^63`: if
`multiply(P, n)` returns `R` and `rep(n)` returns `R'` in runs where every value
returned by `mod_inv` is an inverse of its argument modulo `p`, then the
wrap-around runs of `multiply(P, n)` and of `rep(n)` return `R` and `R'`, and
these are the same point (`R = R'`, hence `R == R'`). -/
theorem multiply_m_eq_rep_of_exact (a b p : Int) (c : EllipticCurve)
    (hp : Nat.Prime p.toNat) (hp2 : p ≤ 2 ^ 20)
    (ha0 : 0 ≤ a) (ha1 : a < p) (hb0 : 0 ≤ b) (hb1 : b < p)
    (hc : construct_m wrapped a b p = some (Except.ok c))
    (P : Point) (hfin : P.inf = false) (hr : in_range c P) (hon : on_curve c P)
    (n : Nat) (hn : (n : Int) < 2 ^ 63) (R R' : Point)
    (hm : multiply_exact c P n = Except.ok R) (hrep : rep_exact c P n = Except.ok R') :
    multiply_m wrapped c P n = some (Except.ok R) ∧
      rep_m wrapped c P n = some (Except.ok R') ∧ R = R' ∧ R.eq R' = true := by
  have hp1 : 1 < p := by have := hp.two_le; omega
  obtain ⟨hcu, hcc⟩ := construct_m_ok a b p c hp1 hp2 ha0 ha1 hb0 hb1 hc
  obtain ⟨h1, h2, h3, h4⟩ := multiply_eq_rep_of_exact a b p c hp hcu P hfin hr hon n R R' hm hrep
  have bp1 : 1 < c.p := by rw [hcc]; exact hp1
  have bp2 : c.p ≤ 2 ^ 20 := by rw [hcc]; exact hp2
  have ba0 : 0 ≤ c.a := by rw [hcc]; exact ha0
  have ba1 : c.a < c.p := by rw [hcc]; exact ha1
  refine ⟨?_, ?_, h3, h4⟩
  · rw [multiply_m_eq wrapped wrapped_of_in64 c bp1 bp2 ba0 ba1 P hr n
      (by unfold in64; constructor <;> omega), h1]
  · rw [rep_m_eq wrapped wrapped_of_in64 c bp1 bp2 ba0 ba1 P hr n, h2]

/-- Witness of `multiply_m_eq_rep_of_exact`: curve `(2, 3, 97)`, `P = (3, 6)`,
`n = 3`. -/
theorem multiply_m_eq_rep_of_exact_witness :
    multiply_m wrapped ⟨2, 3, 97⟩ (Point.finite 3 6) (3 : Nat) =
        some (Except.ok (Point.finite 80 87)) ∧
      rep_m wrapped ⟨2, 3, 97⟩ (Point.finite 3 6) 3 = some (Except.ok (Point.finite 80 87)) ∧
      Point.finite 80 87 = Point.finite 80 87 ∧
      (Point.finite 80 87).eq (Point.finite 80 87) = true :=
  multiply_m_eq_rep_of_exact 2 3 97 ⟨2, 3, 97⟩ (by norm_num [Int.toNat]) (by decide)
    (by decide) (by decide) (by decide) (by decide) (by rfl) (Point.finite 3 6)
    rfl (by decide) (by decide) 3 (by decide) (Point.finite 80 87) (Point.finite 80 87)
    (by rw [← multiply_exact_eval]; rfl) (by rw [← rep_exact_eval]; rfl)

set_option maxRecDepth 4000 in
/-- C9 (counterexample). Wrap-around runs. On the curve `(1, 2, 5)` with
`P = (1, 2)` and `m = n = 1`, `multiply(P, 2)` fails while
`add(multiply(P, 1), multiply(P, 1))` returns `(4, 0)`; on the curve `(0, 2, 5)`
with `P = (4, 1)`, `m = 2`, `n = 1`, `multiply(P, 3)` returns `(2, 3)` while
`add(multiply(P, 2), multiply(P, 1))` returns `(2, 0)`; on the curve
`(1, 716, 2097169)` with `P = (2097161, 14)`, `m = 2`, `n = 1`, where products
overflow, `multiply(P, 3)` returns `(99606, 849439)` while
`add(multiply(P, 2), multiply(P, 1))` returns `(99606, 1247702)`. -/
theorem multiply_m_add_ne :
    (Nat.Prime (5 : Int).toNat ∧ construct_m wrapped 1 2 5 = some (Except.ok ⟨1, 2, 5⟩) ∧
      in_range ⟨1, 2, 5⟩ (Point.finite 1 2) ∧ on_curve ⟨1, 2, 5⟩ (Point.finite 1 2) ∧
      multiply_m wrapped ⟨1, 2, 5⟩ (Point.finite 1 2) (1 + 1) =
        some (Except.error Error.runtime_error) ∧
      multiply_m wrapped ⟨1, 2, 5⟩ (Point.finite 1 2) 1 = some (Except.ok (Point.finite 1 2)) ∧
      add_m wrapped ⟨1, 2, 5⟩ (Point.finite 1 2) (Point.finite 1 2) =
        some (Except.ok (Point.finite 4 0))) ∧
    (construct_m wrapped 0 2 5 = some (Except.ok ⟨0, 2, 5⟩) ∧
      in_range ⟨0, 2, 5⟩ (Point.finite 4 1) ∧ on_curve ⟨0, 2, 5⟩ (Point.finite 4 1) ∧
      multiply_m wrapped ⟨0, 2, 5⟩ (Point.finite 4 1) (2 + 1) =
        some (Except.ok (Point.finite 2 3)) ∧
      multiply_m wrapped ⟨0, 2, 5⟩ (Point.finite 4 1) 2 = some (Except.ok (Point.finite 3 3)) ∧
      multiply_m wrapped ⟨0, 2, 5⟩ (Point.finite 4 1) 1 = some (Except.ok (Point.finite 4 1)) ∧
      add_m wrapped ⟨0, 2, 5⟩ (Point.finite 3 3) (Point.finite 4 1) =
        some (Except.ok (Point.finite 2 0)) ∧
      (Point.finite 2 3).eq (Point.finite 2 0) = false) ∧
    (Nat.Prime (2097169 : Int).toNat ∧
      construct_m wrapped 1 716 2097169 = some (Except.ok ⟨1, 716, 2097169⟩) ∧
      in_range ⟨1, 716, 2097169⟩ (Point.finite 2097161 14) ∧
      on_curve ⟨1, 716, 2097169⟩ (Point.finite 2097161 14) ∧
      multiply_m wrapped ⟨1, 716, 2097169⟩ (Point.finite 2097161 14) (2 + 1) =
        some (Except.ok (Point.finite 99606 849439)) ∧
      multiply_m wrapped ⟨1, 716, 2097169⟩ (Point.finite 2097161 14) 2 =
        some (Except.ok (Point.finite 1497330 1808399)) ∧
      multiply_m wrapped ⟨1, 716, 2097169⟩ (Point.finite 2097161 14) 1 =
        some (Except.ok (Point.finite 2097161 14)) ∧
      add_m wrapped ⟨1, 716, 2097169⟩ (Point.finite 1497330 1808399) (Point.finite 2097161 14) =
        some (Except.ok (Point.finite 99606 1247702)) ∧
      (Point.finite 99606 849439).eq (Point.finite 99606 1247702) = false) := by
  refine ⟨⟨by norm_num [Int.toNat], by rfl, by decide, by decide, by rfl, by rfl, by rfl⟩,
    ⟨by rfl, by decide, by decide, by rfl, by rfl, by rfl, by rfl, by rfl⟩,
    ⟨by norm_num [Int.toNat], by rfl, by decide, by decide, by rfl, by rfl, by rfl, by rfl,
      by rfl⟩⟩

/-- C9 (amended). For every curve with `p` prime, `p <= 2^20` and
`0 <= a, b < p` on which construction succeeds, every finite point `P` with
coordinates in `[0, p - 1]` on the curve and all `m, n >= 0` with
`m + n < 2^63`: if `multiply(P, m + n)` returns `A`, `multiply(P, m)` returns
`B`, `multiply(P, n)` returns `C` and `add(B, C)` returns `D` in runs where
every value returned by `mod_inv` is an inverse of its argument modulo `p`,
then the wrap-around runs return the same `A`, `B`, `C`, `D`, and
`multiply(P, m + n)` is the same point as `add(multiply(P, m), multiply(P, n))`
(`A = D`, hence `A == D`). -/
theorem multiply_m_add_of_exact (a b p : Int) (c : EllipticCurve)
    (hp : Nat.Prime p.toNat) (hp2 : p ≤ 2 ^ 20)
    (ha0 : 0 ≤ a) (ha1 : a < p) (hb0 : 0 ≤ b) (hb1 : b < p)
    (hc : construct_m wrapped a b p = some (Except.ok c))
    (P : Point) (hfin : P.inf = false) (hr : in_range c P) (hon : on_curve c P)
    (m n : Nat) (hmn : (m : Int) + (n : Int) < 2 ^ 63) (A B C D : Point)
    (hA : multiply_exact c P ((m : Int) + (n : Int)) = Except.ok A)
    (hB : multiply_exact c P m = Except.ok B) (hC : multiply_exact c P n = Except.ok C)
    (hD : add_exact c B C = Except.ok D) :
    multiply_m wrapped c P ((m : Int) + (n : Int)) = some (Except.ok A) ∧
      multiply_m wrapped c P m = some (Except.ok B) ∧
      multiply_m wrapped c P n = some (Except.ok C) ∧
      add_m wrapped c B C = some (Except.ok D) ∧ A = D ∧ A.eq D = true := by
  have hp1 : 1 < p := by have := hp.two_le; omega
  obtain ⟨hcu, hcc⟩ := construct_m_ok a b p c hp1 hp2 ha0 ha1 hb0 hb1 hc
  obtain ⟨h1, h2, h3, h4, h5, h6⟩ :=
    multiply_add_of_exact a b p c hp hcu P hfin hr hon m n A B C D hA hB hC hD
  have bp1 : 1 < c.p := by rw [hcc]; exact hp1
  have bp2 : c.p ≤ 2 ^ 20 := by rw [hcc]; exact hp2
  have ba0 : 0 ≤ c.a := by rw [hcc]; exact ha0
  have ba1 : c.a < c.p := by rw [hcc]; exact ha1
  have hBr := multiply_in_range c bp1.le P B m hr h2
  have hCr := multiply_in_range c bp1.le P C n hr h3
  refine ⟨?_, ?_, ?_, ?_, h5, h6⟩
  · rw [multiply_m_eq wrapped wrapped_of_in64 c bp1 bp2 ba0 ba1 P hr _
      (by unfold in64; constructor <;> omega), h1]
  · rw [multiply_m_eq wrapped wrapped_of_in64 c bp1 bp2 ba0 ba1 P hr _
      (by unfold in64; constructor <;> omega), h2]
  · rw [multiply_m_eq wrapped wrapped_of_in64 c bp1 bp2 ba0 ba1 P hr _
      (by unfold in64; constructor <;> omega), h3]
  · rw [add_m_eq wrapped wrapped_of_in64 c bp1 bp2 ba0 ba1 B C hBr hCr, h4]

/-- Witness of `multiply_m_add_of_exact`: curve `(2, 3, 97)`, `P = (3, 6)`,
`m = 1`, `n = 2`. -/
theorem multiply_m_add_of_exact_witness :
    multiply_m wrapped ⟨2, 3, 97⟩ (Point.finite 3 6) (((1 : Nat) : Int) + ((2 : Nat) : Int)) =
        some (Except.ok (Point.finite 80 87)) ∧
      multiply_m wrapped ⟨2, 3, 97⟩ (Point.finite 3 6) (1 : Nat) =
        some (Except.ok (Point.finite 3 6)) ∧
      multiply_m wrapped ⟨2, 3, 97⟩ (Point.finite 3 6) (2 : Nat) =
        some (Except.ok (Point.finite 80 10)) ∧
      add_m wrapped ⟨2, 3, 97⟩ (Point.finite 3 6) (Point.finite 80 10) =
        some (Except.ok (Point.finite 80 87)) ∧
      Point.finite 80 87 = Point.finite 80 87 ∧
      (Point.finite 80 87).eq (Point.finite 80 87) = true :=
  multiply_m_add_of_exact 2 3 97 ⟨2, 3, 97⟩ (by norm_num [Int.toNat]) (by decide)
    (by decide) (by decide) (by decide) (by decide) (by rfl) (Point.finite 3 6)
    rfl (by decide) (by decide) 1 2 (by decide) (Point.finite 80 87) (Point.finite 3 6)
    (Point.finite 80 10) (Point.finite 80 87)
    (by rw [← multiply_exact_eval]; rfl) (by rw [← multiply_exact_eval]; rfl)
    (by rw [← multiply_exact_eval]; rfl) (by rw [← add_exact_eval]; rfl)

/-! ### The wrap-around runs always return within their step budget -/

theorem in64_wrap64 (x : Int) : in64 (wrap64 x) := by
  unfold in64 wrap64
  constructor <;> omega

theorem wrap64_congr (x y : Int) (h : x ≡ y [ZMOD 2 ^ 64]) : wrap64 x = wrap64 y := by
  unfold wrap64
  have h1 : (x + 2 ^ 63) % 2 ^ 64 = (y + 2 ^ 63) % 2 ^ 64 := (h.add_right (2 ^ 63))
  rw [h1]

theorem wrap64_modEq (x : Int) : wrap64 x ≡ x [ZMOD 2 ^ 64] := by
  unfold wrap64
  have h : (x + 2 ^ 63) % 2 ^ 64 ≡ x + 2 ^ 63 [ZMOD 2 ^ 64] := Int.mod_modEq _ _
  have h2 := h.sub_right (2 ^ 63)
  simpa using h2

/-- In the wrap-around loop of `mod_inv` the remainder track is exact: the new
`newr` is the truncated remainder of `r` by `newr`, whatever wraps on the way. -/
theorem wrap64_remainder (r newr : Int) (h0 : newr ≠ 0) (hn : in64 newr) :
    wrap64 (r - wrap64 (wrap64 (Int.tdiv r newr) * newr)) = Int.tmod r newr := by
  have h1 : wrap64 (Int.tdiv r newr) * newr ≡ Int.tdiv r newr * newr [ZMOD 2 ^ 64] :=
    (wrap64_modEq _).mul_right _
  have h2 : r - wrap64 (wrap64 (Int.tdiv r newr) * newr) ≡
      r - Int.tdiv r newr * newr [ZMOD 2 ^ 64] :=
    (Int.ModEq.refl r).sub ((wrap64_modEq _).trans h1)
  rw [wrap64_congr _ _ h2, sub_tdiv_mul_eq_tmod]
  apply wrap64_of_in64
  have h3 := abs_le.mp (abs_tmod_le_right r newr h0)
  unfold in64 at hn ⊢
  have h4 := natAbs_tmod r newr
  have h5 := Nat.mod_lt r.natAbs (Int.natAbs_pos.mpr h0)
  constructor <;> omega

theorem mod_inv_loop_m_wrapped_some (k : Nat) :
    ∀ (t newt r newr : Int), newr.natAbs < k → in64 newr →
      ∃ res, mod_inv_loop_m wrapped k t newt r newr = some res := by
  induction k with
  | zero => intro t newt r newr h; omega
  | succ k ih =>
    intro t newt r newr h hn
    by_cases h0 : newr = 0
    · exact ⟨(t, r), by simp [mod_inv_loop_m, h0]⟩
    · rw [mod_inv_loop_m, if_neg h0]
      simp only [wrapped_eq, Option.bind_eq_bind, Option.some_bind]
      rw [wrap64_remainder r newr h0 hn]
      apply ih
      · rw [natAbs_tmod]
        have := Nat.mod_lt r.natAbs (Int.natAbs_pos.mpr h0)
        omega
      · have h4 := natAbs_tmod r newr
        have h5 := Nat.mod_lt r.natAbs (Int.natAbs_pos.mpr h0)
        unfold in64 at hn ⊢
        constructor <;> omega

theorem mod_inv_m_wrapped_some (c : EllipticCurve) (n : Int) (hn : in64 n) :
    ∃ res, mod_inv_m wrapped c n = some res := by
  obtain ⟨tr, htr⟩ := mod_inv_loop_m_wrapped_some (n.natAbs + 1) 0 1 c.p n
    (Nat.lt_succ_self _) hn
  unfold mod_inv_m
  simp only [htr, wrapped_eq, Option.bind_eq_bind, Option.some_bind, Option.pure_def]
  split
  · exact ⟨_, rfl⟩
  · split
    · exact ⟨_, rfl⟩
    · exact ⟨_, rfl⟩

theorem slope_m_wrapped_some (c : EllipticCurve) (P Q : Point) :
    ∃ res, slope_m wrapped c P Q = some res := by
  unfold slope_m
  split
  · simp only [wrapped_eq, Option.bind_eq_bind, Option.some_bind, Option.pure_def]
    obtain ⟨res, hres⟩ := mod_inv_m_wrapped_some c (wrap64 (2 * P.y)) (in64_wrap64 _)
    rw [hres]
    cases res with
    | error e => exact ⟨_, rfl⟩
    | ok v => exact ⟨_, rfl⟩
  · simp only [wrapped_eq, Option.bind_eq_bind, Option.some_bind, Option.pure_def]
    obtain ⟨res, hres⟩ := mod_inv_m_wrapped_some c (wrap64 (Q.x - P.x)) (in64_wrap64 _)
    rw [hres]
    cases res with
    | error e => exact ⟨_, rfl⟩
    | ok v => exact ⟨_, rfl⟩

/-- The wrap-around run of `add` always has an outcome: a point or an
exception, never an exhausted step budget. -/
theorem add_m_wrapped_some (c : EllipticCurve) (P Q : Point) :
    ∃ res, add_m wrapped c P Q = some res := by
  unfold add_m
  split
  · exact ⟨_, rfl⟩
  · split
    · exact ⟨_, rfl⟩
    · split
      · exact ⟨_, rfl⟩
      · obtain ⟨res, hres⟩ := slope_m_wrapped_some c P Q
        simp only [hres, wrapped_eq, Option.bind_eq_bind, Option.some_bind, Option.pure_def]
        cases res with
        | error e => exact ⟨_, rfl⟩
        | ok m => exact ⟨_, rfl⟩

theorem multiply_loop_m_wrapped_some (c : EllipticCurve) (k : Nat) :
    ∀ (R Q : Point) (n : Int), n.toNat < k → in64 n →
      ∃ res, multiply_loop_m wrapped c k R Q n = some res := by
  induction k with
  | zero => intro R Q n h; omega
  | succ k ih =>
    intro R Q n h hn
    by_cases h0 : n > 0
    · have hdiv : Int.tdiv n 2 = n / 2 := Int.tdiv_eq_ediv (by omega) (by omega)
      have hmod : Int.tmod n 2 = n % 2 := Int.tmod_eq_emod (by omega) (by omega)
      have hlt : (Int.tdiv n 2).toNat < k := by omega
      unfold in64 at hn
      have hhalf : in64 (Int.tdiv n 2) := by unfold in64; omega
      rw [multiply_loop_m, if_pos h0]
      simp only [wrapped_eq, wrap64_of_in64 _ hhalf, Option.bind_eq_bind, Option.some_bind,
        Option.pure_def]
      obtain ⟨q1, hq1⟩ := add_m_wrapped_some c Q Q
      have hR1 : ∃ r1, (if wrap64 (Int.tmod n 2) = 1 then add_m wrapped c R Q
          else some (Except.ok R)) = some r1 := by
        split
        · exact add_m_wrapped_some c R Q
        · exact ⟨_, rfl⟩
      obtain ⟨r1, hr1⟩ := hR1
      rw [hr1, hq1]
      simp only [Option.some_bind]
      cases r1 with
      | error e => exact ⟨_, rfl⟩
      | ok R1 =>
        simp only [Option.some_bind]
        cases q1 with
        | error e => exact ⟨_, rfl⟩
        | ok Q1 =>
          simp only []
          exact ih R1 Q1 _ hlt hhalf
    · exact ⟨Except.ok R, by rw [multiply_loop_m, if_neg h0]; rfl⟩

/-- The wrap-around run of `multiply` on a 64-bit scalar always has an
outcome: a point or an exception, never an exhausted step budget. -/
theorem multiply_m_wrapped_some (c : EllipticCurve) (P : Point) (n : Int) (hn : in64 n) :
    ∃ res, multiply_m wrapped c P n = some res :=
  multiply_loop_m_wrapped_some c (n.toNat + 1) Point.infinity P n (Nat.lt_succ_self _) hn

end EllipticCurve

end Swinnerton
